import Mathlib

/-!
A verification development for the LP core of libqif
(`include/qif_bits/LinearProgram.h`): the problem model, the
canonical-form transformation, the exact two-phase revised simplex, the
solution mapper, and the GLPK adapter's status normalization.

The element type `eT` of the C++ template is embedded as `XR`, an
extended rational: the repository stores variable and constraint bounds
as ordinary `eT` values that may hold `±infinity<eT>()`.  The helper
`infinity<eT>()` itself is not part of the sources under verification,
so `XR` is modelled from the spec ("lower bound, upper bound (either may
be ±infinity)") with IEEE-like conventions for arithmetic on infinities;
indeterminate forms (e.g. `∞ + (-∞)`) are given the junk value `0` and
are never relied upon by any theorem below.
-/

namespace LibQif

/-- Extended rationals: the element type of the LP model.  Modelled from
the spec: bounds "may be ±infinity"; finite values are exact rationals. -/
inductive XR where
  | ninf : XR
  | fin  : ℚ → XR
  | pinf : XR
  deriving DecidableEq, Repr

namespace XR

def neg : XR → XR
  | ninf  => pinf
  | fin q => fin (-q)
  | pinf  => ninf

instance : Neg XR := ⟨neg⟩

def add : XR → XR → XR
  | fin q, fin r => fin (q + r)
  | pinf,  ninf  => fin 0
  | ninf,  pinf  => fin 0
  | pinf,  _     => pinf
  | _,     pinf  => pinf
  | ninf,  _     => ninf
  | _,     ninf  => ninf

instance : Add XR := ⟨add⟩

instance : Sub XR := ⟨fun a b => a + (-b)⟩

def mul : XR → XR → XR
  | fin q, fin r => fin (q * r)
  | fin q, pinf  => if 0 < q then pinf else if q < 0 then ninf else fin 0
  | fin q, ninf  => if 0 < q then ninf else if q < 0 then pinf else fin 0
  | pinf,  fin r => if 0 < r then pinf else if r < 0 then ninf else fin 0
  | ninf,  fin r => if 0 < r then ninf else if r < 0 then pinf else fin 0
  | pinf,  pinf  => pinf
  | ninf,  ninf  => pinf
  | pinf,  ninf  => ninf
  | ninf,  pinf  => ninf

instance : Mul XR := ⟨mul⟩

def div : XR → XR → XR
  | fin q, fin r => fin (q / r)
  | fin _, pinf  => fin 0
  | fin _, ninf  => fin 0
  | pinf,  fin r => if 0 ≤ r then pinf else ninf
  | ninf,  fin r => if 0 ≤ r then ninf else pinf
  | _,     _     => fin 0

instance : Div XR := ⟨div⟩

/-- Exact strict comparison, the embedding of `less_than` for the exact
rational instantiation (comparisons carry no tolerance). -/
def lt : XR → XR → Bool
  | ninf,  ninf  => false
  | ninf,  _     => true
  | _,     ninf  => false
  | pinf,  _     => false
  | fin _, pinf  => true
  | fin q, fin r => decide (q < r)

instance : LT XR := ⟨fun a b => lt a b = true⟩

instance (a b : XR) : Decidable (a < b) :=
  inferInstanceAs (Decidable (lt a b = true))

instance : LE XR := ⟨fun a b => lt b a = false⟩

instance (a b : XR) : Decidable (a ≤ b) :=
  inferInstanceAs (Decidable (lt b a = false))

instance : Zero XR := ⟨fin 0⟩
instance : One XR := ⟨fin 1⟩

end XR

/-- One stored sparse-matrix entry: the embedding of `MatrixEntry<eT>`. -/
structure Entry where
  row : ℕ
  col : ℕ
  val : XR
  deriving DecidableEq, Repr

/-- `lp::status_t`. -/
inductive Status where
  | optimal | infeasible | unbounded | infeasible_or_unbounded | error
  deriving DecidableEq, Repr

/-- `lp::method_t`. -/
inductive Method where
  | simplex_primal | simplex_dual | simplex_dualp | interior
  deriving DecidableEq, Repr

/-- The embedding of `LinearProgram<eT>`: dense compat fields `A, b, c,
sense` plus the incremental representation (`*_coeff`, bounds, counters),
the recorded variable transforms, the status and the solution vector. -/
structure Model where
  A             : List (List XR) := []
  b             : List XR := []
  c             : List XR := []
  sense         : List Char := []
  maximize      : Bool := true
  non_negative  : Bool := true
  method        : Method := Method.simplex_primal
  status        : Status := Status.error
  x             : List XR := []
  obj_coeff     : List XR := []
  con_coeff     : List Entry := []
  var_lb        : List XR := []
  var_ub        : List XR := []
  con_lb        : List XR := []
  con_ub        : List XR := []
  n_var         : ℕ := 0
  n_con         : ℕ := 0
  var_transform : List (Int × XR × XR) := []
  deriving DecidableEq, Repr

namespace Model

/-- `LinearProgram::make_var`: push the bounds and a zero objective
coefficient, return the next dense index. -/
def make_var (m : Model) (lb ub : XR) : Model × ℕ :=
  ({ m with var_lb := m.var_lb ++ [lb],
            var_ub := m.var_ub ++ [ub],
            obj_coeff := m.obj_coeff ++ [0],
            n_var := m.n_var + 1 }, m.n_var)

/-- `LinearProgram::make_con`: refuse a constraint whose upper bound is
`+∞` and whose lower bound is its negation (`ub == infinity && lb == -ub`);
otherwise push the bounds and return the next dense index.  A thrown
exception is `none` in the second component, and leaves the model as it
was. -/
def make_con (m : Model) (lb ub : XR) : Model × Option ℕ :=
  if ub = XR.pinf ∧ lb = -ub then (m, none)
  else ({ m with con_lb := m.con_lb ++ [lb],
                 con_ub := m.con_ub ++ [ub],
                 n_con := m.n_con + 1 }, some m.n_con)

/-- `LinearProgram::set_obj_coeff`: dense slot update, adding when the
`add` flag is set. -/
def set_obj_coeff (m : Model) (var : ℕ) (coeff : XR) (add : Bool) : Model :=
  if add then { m with obj_coeff := m.obj_coeff.set var (m.obj_coeff.getD var 0 + coeff) }
  else { m with obj_coeff := m.obj_coeff.set var coeff }

/-- Helper for `set_con_coeff` with the `add` flag: add `coeff` into the
first stored entry for `(con, var)`; report whether one was found. -/
def accum_entry (l : List Entry) (con var : ℕ) (coeff : XR) : List Entry × Bool :=
  match l with
  | [] => ([], false)
  | e :: rest =>
    if e.row = con ∧ e.col = var then (⟨e.row, e.col, e.val + coeff⟩ :: rest, true)
    else
      let (rest', found) := accum_entry rest con var coeff
      (e :: rest', found)

/-- `LinearProgram::set_con_coeff`: with `add` set, a linear scan adds
into the first matching entry and returns; in every other case (also
when re-setting with `add` unset, and for a zero value) a new entry is
pushed at the back. -/
def set_con_coeff (m : Model) (con var : ℕ) (coeff : XR) (add : Bool) : Model :=
  if add then
    let p := accum_entry m.con_coeff con var coeff
    if p.2 then { m with con_coeff := p.1 }
    else { m with con_coeff := m.con_coeff ++ [⟨con, var, coeff⟩] }
  else { m with con_coeff := m.con_coeff ++ [⟨con, var, coeff⟩] }

/-- `LinearProgram::get_sense`: default sense is `<`. -/
def get_sense (m : Model) (i : ℕ) : Char :=
  if i < m.sense.length then m.sense.getD i '<' else '<'

/-- Number of columns of the dense compat matrix `A`. -/
def n_cols (m : Model) : ℕ := (m.A.headD []).length

/-- `LinearProgram::check_sizes` succeeds:
`A.n_rows == b.n_rows && A.n_cols == c.n_rows`. -/
def sizes_ok (m : Model) : Prop :=
  m.A.length = m.b.length ∧ n_cols m = m.c.length

instance (m : Model) : Decidable (sizes_ok m) := by
  unfold sizes_ok; infer_instance

/-- `LinearProgram::compat_build_matrix`: when `n_var == 0`, rebuild the
incremental representation (`*_coeff`, bounds, counters) from the dense
`A, b, c, sense`; coefficient entries are pushed column-major, visiting
only the nonzero elements of `A`. -/
def compat_build_matrix (m : Model) : Model :=
  if m.n_var = 0 then
    let nv := m.c.length
    let nc := m.A.length
    { m with
      n_var := nv, n_con := nc,
      var_lb := List.replicate nv (if m.non_negative then (0 : XR) else XR.ninf),
      var_ub := List.replicate nv XR.pinf,
      con_lb := (List.range nc).map (fun con =>
        if m.get_sense con = '<' then XR.ninf else m.b.getD con 0),
      con_ub := (List.range nc).map (fun con =>
        if m.get_sense con = '>' then XR.pinf else m.b.getD con 0),
      obj_coeff := (List.range nv).map (fun v => m.c.getD v 0),
      con_coeff := ((List.range nv).map (fun col =>
        (List.range nc).filterMap (fun row =>
          let v := (m.A.getD row []).getD col 0
          if v ≠ 0 then some (Entry.mk row col v) else none))).flatten }
  else m

/-- `LinearProgram::original_x`: map the canonical-form solution back to
the original variables.  A tuple `(v2, coeff, add)` for `v` means the
original value of `v` is `x(v)·coeff + add − (v2 ≥ 0 ? x(v2) : 0)`. -/
def original_x (m : Model) : List XR :=
  (List.range m.var_transform.length).map (fun v =>
    let t := m.var_transform.getD v (-1, 1, 0)
    m.x.getD v 0 * t.2.1 + t.2.2 - (if 0 ≤ t.1 then m.x.getD t.1.toNat 0 else 0))

/-- Bound adjustment used by `to_canonical_form`: add `d` to the finite
bound of constraint `row` (lower bound preferred when not `-∞`, else the
upper bound when not `+∞`). -/
def adjust_bound (m : Model) (row : ℕ) (d : XR) : Model :=
  if m.con_lb.getD row 0 ≠ XR.ninf then
    { m with con_lb := m.con_lb.set row (m.con_lb.getD row 0 + d) }
  else if m.con_ub.getD row 0 ≠ XR.pinf then
    { m with con_ub := m.con_ub.set row (m.con_ub.getD row 0 + d) }
  else m

/-- The entry loop of the `lb == inf` branch of `to_canonical_form`:
for each coefficient entry in order, when its column is `x` first adjust
the entry's constraint bound by `val · mu` (with `mu = -ub`), and then —
for every entry, whatever its column — negate the stored value. -/
def upper_entry_loop (x : ℕ) (mu : XR) : Model → List Entry → Model × List Entry
  | m, [] => (m, [])
  | m, e :: rest =>
    let m1 := if e.col = x then adjust_bound m e.row (e.val * mu) else m
    let (m2, rest') := upper_entry_loop x mu m1 rest
    (m2, ⟨e.row, e.col, -e.val⟩ :: rest')

/-- The entry loop of the final (shift) branch of `to_canonical_form`:
adjust the bound of every constraint with a coefficient on `x` by
`val · lb`; entries themselves are unchanged. -/
def shift_bounds (x : ℕ) (lb : XR) : Model → List Entry → Model
  | m, [] => m
  | m, e :: rest =>
    shift_bounds x lb (if e.col = x then adjust_bound m e.row (e.val * lb) else m) rest

/-- The per-variable body of the first loop of
`LinearProgram::to_canonical_form`.  Resets the bounds of `x` to
`[0, ∞)`, then branches on the saved bounds: free split
(`lb = -∞ ∧ ub = +∞`), upper-bounded substitution (guard `lb == inf`,
i.e. lower bound equal to **positive** infinity, as in the source), or
the shift `x* = x − lb`.  `none` is a thrown exception. -/
def canon_var_step (m : Model) (x : ℕ) : Option Model :=
  let lb := m.var_lb.getD x 0
  let ub := m.var_ub.getD x 0
  let m0 := { m with var_lb := m.var_lb.set x 0, var_ub := m.var_ub.set x XR.pinf }
  if lb = XR.ninf ∧ ub = XR.pinf then
    let p := m0.make_var 0 XR.pinf
    let xnew := p.2
    let m2 := { p.1 with var_transform := p.1.var_transform ++ [(Int.ofNat xnew, 1, 0)] }
    let m3 := m2.set_obj_coeff xnew (-(m2.obj_coeff.getD x 0)) false
    some { m3 with con_coeff := m3.con_coeff ++
      (m3.con_coeff.filter (fun e => decide (e.col = x))).map (fun e => ⟨e.row, xnew, -e.val⟩) }
  else if lb = XR.pinf then
    let m1 := { m0 with var_transform := m0.var_transform ++ [(-1, -1, ub)] }
    let m2 := { m1 with obj_coeff := m1.obj_coeff.set x (m1.obj_coeff.getD x 0 * (-1)) }
    let p := upper_entry_loop x (-ub) m2 m2.con_coeff
    some { p.1 with con_coeff := p.2 }
  else
    let m1 := { m0 with var_transform := m0.var_transform ++ [(-1, 1, -lb)] }
    let m2 := shift_bounds x lb m1 m1.con_coeff
    if ub ≠ XR.pinf then
      let p := m2.make_con XR.ninf (lb + ub)
      match p.2 with
      | some con => some (p.1.set_con_coeff con x 1 false)
      | none => none
    else some m2

/-- The first loop of `to_canonical_form`, over the variable indices
present before the transformation. -/
def canon_var_loop : Model → List ℕ → Option Model
  | m, [] => some m
  | m, x :: rest =>
    match canon_var_step m x with
    | some m' => canon_var_loop m' rest
    | none => none

/-- The body of the constraint-splitting loop of `to_canonical_form`:
a constraint with two finite, distinct bounds keeps only its lower bound
(upper set to `+∞`) and a fresh `≤ ub` constraint with copies of its row
coefficients is appended. -/
def split_con_step (m : Model) (c : ℕ) : Option Model :=
  let lb := m.con_lb.getD c 0
  let ub := m.con_ub.getD c 0
  if lb ≠ XR.ninf ∧ ub ≠ XR.pinf ∧ lb ≠ ub then
    let m0 := { m with con_ub := m.con_ub.set c XR.pinf }
    let p := m0.make_con XR.ninf ub
    match p.2 with
    | some newc =>
      some { p.1 with con_coeff := p.1.con_coeff ++
        (p.1.con_coeff.filter (fun e => decide (e.row = c))).map (fun e => ⟨newc, e.col, e.val⟩) }
    | none => none
  else some m

/-- The constraint-splitting loop.  The C++ loop re-reads `n_con` at
every iteration while appending constraints; it is embedded with a fuel
bound, and `to_canonical_form` passes fuel `2·n_con + 1`, which always
suffices because appended constraints have lower bound `-∞` and are
never split again. -/
def split_con_loop : ℕ → Model → ℕ → Option Model
  | 0, m, c => if c < m.n_con then none else some m
  | fuel + 1, m, c =>
    if c < m.n_con then
      match split_con_step m c with
      | some m' => split_con_loop fuel m' (c + 1)
      | none => none
    else some m

/-- The slack loop of `to_canonical_form`: every non-equality constraint
receives a fresh nonnegative variable (`+1` coefficient for an
upper-bound row, `-1` for a lower-bound row) and its bounds are made
equal. -/
def slack_con_step (m : Model) (c : ℕ) : Model :=
  let lb := m.con_lb.getD c 0
  let ub := m.con_ub.getD c 0
  if lb = XR.ninf then
    let m0 := { m with con_lb := m.con_lb.set c ub }
    let p := m0.make_var 0 XR.pinf
    p.1.set_con_coeff c p.2 1 false
  else if ub = XR.pinf then
    let m0 := { m with con_ub := m.con_ub.set c lb }
    let p := m0.make_var 0 XR.pinf
    p.1.set_con_coeff c p.2 (-1) false
  else m

/-- The sign-flip loop of `to_canonical_form`: a constraint with a
negative upper bound has both bounds and its whole coefficient row
negated. -/
def flip_con_step (m : Model) (c : ℕ) : Model :=
  if m.con_ub.getD c 0 < 0 then
    { m with
      con_lb := m.con_lb.set c (m.con_lb.getD c 0 * (-1)),
      con_ub := m.con_ub.set c (m.con_ub.getD c 0 * (-1)),
      con_coeff := m.con_coeff.map (fun e =>
        if e.row = c then ⟨e.row, e.col, e.val * (-1)⟩ else e) }
  else m

/-- `LinearProgram::to_canonical_form`, in-place canonicalization of the
incremental representation.  `none` embeds a thrown exception (the
`var_transform already set` guard or `make_con` refusing a constraint)
or exhaustion of the split-loop fuel, which never happens in fact. -/
def to_canonical_form (m : Model) : Option Model :=
  if m.var_transform.length ≠ 0 then none
  else
    match canon_var_loop m (List.range m.n_var) with
    | none => none
    | some m1 =>
      match split_con_loop (2 * m1.n_con + 1) m1 0 with
      | none => none
      | some m2 =>
        let m3 := (List.range m2.n_con).foldl slack_con_step m2
        let m4 := (List.range m3.n_con).foldl flip_con_step m3
        some (if m4.maximize then
          { m4 with maximize := false, obj_coeff := m4.obj_coeff.map (fun q => q * (-1)) }
        else m4)

/-- `LinearProgram::canonical_form` (the dense variant): build a fresh
minimizing program with equality senses, one auxiliary column per
non-equality row, and rows with negative right-hand side sign-flipped.
The first component of the result is the receiver after the call — the
method writes only to the local `lp`, never to `this`. -/
def canonical_form (m : Model) : Model × Model :=
  let mrows := m.A.length
  let n := n_cols m
  let extra := ((List.range mrows).filter (fun i => decide (m.get_sense i ≠ '='))).length
  let auxrow : ℕ → List XR := fun i =>
    (List.range extra).map (fun k =>
      if m.get_sense i ≠ '=' ∧
         k = ((List.range i).filter (fun j => decide (m.get_sense j ≠ '='))).length
      then (if m.get_sense i = '<' then (1 : XR) else -1) else 0)
  let cfull := (List.range (n + extra)).map (fun j => if j < n then m.c.getD j 0 else 0)
  let cfinal := if m.maximize then cfull.map (fun q => q * (-1)) else cfull
  let rowi : ℕ → List XR := fun i =>
    (List.range n).map (fun j => (m.A.getD i []).getD j 0) ++ auxrow i
  let bneg : ℕ → Bool := fun i => decide (m.b.getD i 0 < 0)
  let lp : Model :=
    { A := (List.range mrows).map (fun i =>
        if bneg i then (rowi i).map (fun q => q * (-1)) else rowi i),
      b := (List.range mrows).map (fun i =>
        if bneg i then m.b.getD i 0 * (-1) else m.b.getD i 0),
      c := cfinal,
      sense := List.replicate mrows '=',
      maximize := false,
      non_negative := true }
  (m, lp)

end Model

/-- GLPK backend constants (from `glpk.h`, an external collaborator). -/
def GLP_UNDEF : ℕ := 1
def GLP_FEAS : ℕ := 2
def GLP_INFEAS : ℕ := 3
def GLP_NOFEAS : ℕ := 4
def GLP_OPT : ℕ := 5
def GLP_UNBND : ℕ := 6
def GLP_ENOPFS : ℕ := 10
def GLP_ENODFS : ℕ := 11

/-- Status normalization of the simplex path of `LinearProgram::glpk`
(primal status, `glp_simplex` return code, dual status). -/
def status_from_simplex (glp_status glp_res glp_dual_st : ℕ) : Status :=
  if glp_status = GLP_OPT then Status.optimal
  else if glp_status = GLP_NOFEAS ∨ glp_res = GLP_ENOPFS then Status.infeasible
  else if glp_status = GLP_UNBND then Status.unbounded
  else if glp_dual_st = GLP_NOFEAS ∨ glp_res = GLP_ENODFS then Status.infeasible_or_unbounded
  else Status.error

/-- Status normalization of the interior-point path of
`LinearProgram::glpk`. -/
def status_from_interior (glp_status : ℕ) : Status :=
  if glp_status = GLP_OPT then Status.optimal
  else if glp_status = GLP_NOFEAS then Status.infeasible_or_unbounded
  else Status.error

/-- What the black-box GLPK backend reports for one run: statuses,
return code, and the primal value per column for either method. -/
structure GlpkResult where
  simplex_status : ℕ
  simplex_res : ℕ
  dual_status : ℕ
  interior_status : ℕ
  col_prim : ℕ → XR
  ipt_col_prim : ℕ → XR

namespace Model

/-- `LinearProgram::glpk` after the backend ran (the backend itself is
the external collaborator `r`): normalize the status, and only on
`optimal` overwrite `x` with one primal value per variable. -/
def glpk (m : Model) (r : GlpkResult) : Model × Bool :=
  let is_interior := m.method = Method.interior
  let st := if is_interior then status_from_interior r.interior_status
            else status_from_simplex r.simplex_status r.simplex_res r.dual_status
  let m1 := { m with status := st }
  let m2 := if st = Status.optimal then
      { m1 with x := (List.range m1.n_var).map (fun j =>
          if is_interior then r.ipt_col_prim j else r.col_prim j) }
    else m1
  (m2, decide (st = Status.optimal))

/-- The generic `LinearProgram::solve`: size check, compat build, glpk,
restore `n_var`.  `none` is a thrown size error. -/
def solve_float (m : Model) (r : GlpkResult) : Option (Model × Bool) :=
  if sizes_ok m then
    let orig := m.n_var
    let m1 := compat_build_matrix m
    let (m2, res) := glpk m1 r
    some ({ m2 with n_var := orig }, res)
  else none

end Model

/-- Left-to-right sum `f 0 + f 1 + ⋯ + f (k-1)`, the order in which the
generic `direct_dot` accumulates. -/
def xsum (k : ℕ) (f : ℕ → XR) : XR :=
  (List.range k).foldl (fun acc i => acc + f i) 0

/-- Dense lookup of a coefficient: `Adense` is filled by assigning the
entries in list order, so the last entry for a position wins and absent
positions are `0`. -/
def dense_entry (l : List Entry) (i j : ℕ) : XR :=
  ((l.reverse.find? (fun e => decide (e.row = i ∧ e.col = j))).map Entry.val).getD 0

/-- The iteration state of `LinearProgram::simplex`: problem data in
matrix form plus the basis bookkeeping of the revised method. -/
structure SState where
  n : ℕ
  m : ℕ
  A : ℕ → ℕ → XR
  b : ℕ → XR
  c : ℕ → XR
  is_basic : List Bool
  basic : List ℕ
  Binv : List (List XR)
  cB : List XR
  xv : List XR
  phase_one : Bool

namespace SState

/-- The dual solution `πᵀ = c_B B⁻¹`. -/
def piT (s : SState) (j : ℕ) : XR :=
  xsum s.m (fun i => s.cB.getD i 0 * (s.Binv.getD i []).getD j 0)

/-- Reduced cost of variable `j`: `c_j − πᵀ A_j`, where `c_j` is taken
as `0` during phase 1. -/
def rc (s : SState) (j : ℕ) : XR :=
  (if s.phase_one then 0 else s.c j) - xsum s.m (fun i => s.piT i * s.A i j)

/-- Pricing: the first variable `j < n` (in increasing index order) that
is not flagged basic and has strictly negative reduced cost. -/
def entering (s : SState) : Option ℕ :=
  (List.range s.n).find? (fun j => !(s.is_basic.getD j false) && decide (s.rc j < 0))

/-- The transformed entering column `B⁻¹ A_entering`. -/
def binv_as (s : SState) (j : ℕ) (i : ℕ) : XR :=
  xsum s.m (fun k => (s.Binv.getD i []).getD k 0 * s.A k j)

/-- Ratio test: scan the basic variables; a row with strictly positive
direction coefficient becomes the leaving candidate when its ratio is
strictly smaller than the current one, or when it is the first
candidate found.  Returns the row index and the minimum ratio. -/
def leaving (s : SState) (d : ℕ → XR) : Option ℕ × XR :=
  (List.range s.m).foldl (fun acc i =>
    if 0 < d i then
      let ratio := s.xv.getD (s.basic.getD i 0) 0 / d i
      if ratio < acc.2 ∨ acc.1 = none then (some i, ratio) else acc
    else acc) (none, 0)

/-- Whether some artificial variable is strictly positive — checked when
phase 1 prices out, to decide infeasibility. -/
def artificial_positive (s : SState) : Bool :=
  (List.range s.m).any (fun k => decide ((0 : XR) < s.xv.getD (s.n + k) 0))

/-- The phase transition: switch to the real cost vector
(`cB(i) = basic(i) > n ? 0 : c(basic(i))`) and leave phase 1. -/
def phase2_switch (s : SState) : SState :=
  { s with phase_one := false,
           cB := (List.range s.m).map (fun i =>
             if s.basic.getD i 0 > s.n then 0 else s.c (s.basic.getD i 0)) }

/-- One pivot: update the solution, Gauss–Jordan-eliminate `B⁻¹` on the
leaving row, and update the bookkeeping (the source writes
`is_basic(entering) = 0`, embedded as-is). -/
def pivot (s : SState) (ent l : ℕ) (d : ℕ → XR) (min_ratio : XR) : SState :=
  let xv1 := (List.range s.m).foldl (fun xv i =>
    xv.set (s.basic.getD i 0) (xv.getD (s.basic.getD i 0) 0 - min_ratio * d i)) s.xv
  let xv2 := xv1.set ent min_ratio
  let pv := d l
  { s with
    xv := xv2,
    Binv := (List.range s.m).map (fun i =>
      (List.range s.m).map (fun j =>
        if i = l then (s.Binv.getD l []).getD j 0 / pv
        else (s.Binv.getD i []).getD j 0 - (d i / pv) * (s.Binv.getD l []).getD j 0)),
    is_basic := (s.is_basic.set (s.basic.getD l 0) false).set ent false,
    cB := s.cB.set l (if s.phase_one then 0 else s.c ent),
    basic := s.basic.set l ent }

end SState

/-- The simplex iteration loop, with fuel: the source loop has no
iteration cap and can cycle on degenerate instances, so `none` means it
has not terminated within `fuel` iterations. -/
def simplex_loop : ℕ → SState → Option (Status × List XR)
  | 0, _ => none
  | fuel + 1, s =>
    match s.entering with
    | none =>
      if s.phase_one then
        if s.artificial_positive then some (Status.infeasible, s.xv)
        else simplex_loop fuel s.phase2_switch
      else some (Status.optimal, s.xv)
    | some ent =>
      let d := s.binv_as ent
      let p := s.leaving d
      match p.1 with
      | none => some (Status.unbounded, s.xv)
      | some l => simplex_loop fuel (s.pivot ent l d p.2)

namespace Model

/-- The initial simplex state: basis = artificials, `x_artificial(i) =
b(i)` where `b = con_lb` of the canonical model. -/
def simplex_init (mdl : Model) : SState :=
  let n := mdl.n_var
  let mm := mdl.n_con
  { n := n, m := mm,
    A := dense_entry mdl.con_coeff,
    b := fun i => mdl.con_lb.getD i 0,
    c := fun j => mdl.obj_coeff.getD j 0,
    is_basic := (List.range (n + mm)).map (fun j => decide (n ≤ j)),
    basic := (List.range mm).map (fun i => i + n),
    Binv := (List.range mm).map (fun i =>
      (List.range mm).map (fun j => if i = j then (1 : XR) else 0)),
    cB := List.replicate mm 1,
    xv := (List.range (n + mm)).map (fun j =>
      if n ≤ j then mdl.con_lb.getD (j - n) 0 else 0),
    phase_one := true }

/-- `LinearProgram::simplex`: run the loop; on termination store the
status, truncate the expanded solution to the first `n` entries, and
return whether the status is `optimal`. -/
def simplex (fuel : ℕ) (mdl : Model) : Option (Model × Bool) :=
  match simplex_loop fuel (simplex_init mdl) with
  | none => none
  | some (st, xv) =>
    some ({ mdl with status := st, x := xv.take mdl.n_var },
          decide (st = Status.optimal))

/-- The `rat` specialization of `LinearProgram::solve`: size check,
compat build, reject non-primal methods, canonicalize and run the
simplex on a clone, copy the status back, on success map the clone's
solution through `original_x`, and restore `n_var`.  `none` embeds a
thrown error or a simplex run that has not terminated within `fuel`. -/
def solve_rat (fuel : ℕ) (m : Model) : Option (Model × Bool) :=
  if sizes_ok m then
    let orig := m.n_var
    let m1 := compat_build_matrix m
    if m1.method = Method.simplex_primal then
      match to_canonical_form m1 with
      | none => none
      | some lp =>
        match simplex fuel lp with
        | none => none
        | some (lp', res) =>
          let m2 := { m1 with status := lp'.status }
          let m3 := if res then { m2 with x := original_x lp' } else m2
          some ({ m3 with n_var := orig }, res)
    else none
  else none

end Model

/-! ### Concrete witness inputs and auxiliary predicates -/

/-- Constraint-bound bookkeeping invariant: the bound vectors track the
constraint counter (maintained by every `make_con`). -/
def WFcon (m : Model) : Prop :=
  m.con_lb.length = m.n_con ∧ m.con_ub.length = m.n_con

/-- A constraint the splitting loop has nothing to do on: one-sided, or
an equality. -/
def con_done (m : Model) (c : ℕ) : Prop :=
  m.con_lb.getD c 0 = XR.ninf ∨ m.con_ub.getD c 0 = XR.pinf ∨
  m.con_lb.getD c 0 = m.con_ub.getD c 0

/-- The C1 failing input: one variable with `lb = -∞` and finite
`ub = 5`, positive objective coefficient, and one dummy equality
constraint. -/
def modelC1 : Model where
  n_var := 1
  var_lb := [XR.ninf]
  var_ub := [XR.fin 5]
  obj_coeff := [XR.fin 1]
  con_lb := [XR.fin 0]
  con_ub := [XR.fin 0]
  n_con := 1
  maximize := false

/-- The C2 witness model: one `[0, ∞)` variable, one `≤` constraint and
one `≥` constraint. -/
def modelC2 : Model where
  maximize := true
  n_var := 1
  n_con := 2
  obj_coeff := [XR.fin 1]
  con_coeff := [⟨0, 0, XR.fin 1⟩, ⟨1, 0, XR.fin 1⟩]
  con_lb := [XR.ninf, XR.fin 2]
  con_ub := [XR.fin (-3), XR.pinf]
  var_lb := [XR.fin 0]
  var_ub := [XR.pinf]

/-- The C4 witness model: the canonical form of an infeasible program,
on which phase 1 ends with a positive artificial. -/
def modelC4 : Model where
  maximize := false
  n_var := 2
  n_con := 1
  obj_coeff := [XR.fin 1, XR.fin 0]
  con_coeff := [⟨0, 0, XR.fin (-1)⟩, ⟨0, 1, XR.fin (-1)⟩]
  con_lb := [XR.fin 1]
  con_ub := [XR.fin 1]
  var_lb := [XR.fin 0, XR.fin 0]
  var_ub := [XR.pinf, XR.pinf]

/-- Witness for C5: a model with a free-split transform and a concrete
solution vector, and the free branch at a concrete two-variable state. -/
def modelC5 : Model where
  n_var := 2
  x := [XR.fin 7, XR.fin 3]
  var_transform := [(Int.ofNat 1, 1, 0)]

/-- The C9 counterexample model: a dense-built program (`n_var = 0`). -/
def modelC9 : Model := { A := [[XR.fin 1]], b := [XR.fin 0], c := [XR.fin 1], maximize := false }

/-- The C10 witness model: an infeasible program (`x ≤ −1`, `x ≥ 0`). -/
def modelC10 : Model := { A := [[XR.fin 1]], b := [XR.fin (-1)], c := [XR.fin 1], maximize := false }

/-- A backend report of primal infeasibility. -/
def glpkNofeas : GlpkResult :=
  ⟨GLP_NOFEAS, 0, GLP_FEAS, GLP_NOFEAS, fun _ => 0, fun _ => 0⟩

/-- A concrete already-optimal phase-2 state for the C3 witness. -/
def stateC3 : SState where
  n := 1
  m := 1
  A := fun _ _ => 1
  b := fun _ => 1
  c := fun _ => 1
  is_basic := [false, true]
  basic := [1]
  Binv := [[1]]
  cB := [0]
  xv := [0, 1]
  phase_one := false

/-! ### Helper lemmas -/

theorem XR.neg_pinf : -XR.pinf = XR.ninf := rfl

theorem XR.mul_one_xr (a : XR) : a * 1 = a := by
  cases a with
  | ninf => show (if (0:ℚ) < 1 then XR.ninf else if (1:ℚ) < 0 then XR.pinf else XR.fin 0) = XR.ninf
            norm_num
  | fin q => show XR.fin (q * 1) = XR.fin q
             rw [mul_one]
  | pinf => show (if (0:ℚ) < 1 then XR.pinf else if (1:ℚ) < 0 then XR.ninf else XR.fin 0) = XR.pinf
            norm_num

theorem XR.add_zero_xr (a : XR) : a + 0 = a := by
  cases a with
  | ninf => rfl
  | fin q => show XR.fin (q + 0) = XR.fin q
             rw [add_zero]
  | pinf => rfl

theorem XR.mul_one_add_zero_sub (a b : XR) : a * 1 + 0 - b = a - b := by
  rw [XR.mul_one_xr, XR.add_zero_xr]

theorem XR.sub_zero_xr (a : XR) : a - 0 = a := by
  cases a with
  | ninf => rfl
  | pinf => rfl
  | fin q => show XR.fin (q + -0) = XR.fin q
             norm_num

theorem XR.nonneg_iff_not_lt_zero (a : XR) : (0 : XR) ≤ a ↔ ¬a < 0 := by
  constructor
  · intro h hlt
    simp only [LT.lt, LE.le] at *
    rw [h] at hlt
    exact Bool.false_ne_true hlt
  · intro h
    simp only [LT.lt, LE.le] at *
    exact Bool.not_eq_true _ ▸ (Bool.eq_false_iff.mpr (fun hc => h hc))

theorem getD_map_range {α : Type} (n v : ℕ) (hv : v < n) (f : ℕ → α) (d : α) :
    ((List.range n).map f).getD v d = f v := by
  rw [List.getD_eq_getElem?_getD, List.getElem?_map, List.getElem?_range hv]
  rfl

theorem getD_set_self {α : Type} (l : List α) (i : ℕ) (h : i < l.length) (a d : α) :
    (l.set i a).getD i d = a := by
  rw [List.getD_eq_getElem?_getD, List.getElem?_set_self]
  · rfl
  · exact h

theorem getD_set_ne {α : Type} (l : List α) (i j : ℕ) (h : i ≠ j) (a d : α) :
    (l.set i a).getD j d = l.getD j d := by
  rw [List.getD_eq_getElem?_getD, List.getElem?_set_ne h, List.getD_eq_getElem?_getD]

/-- The fields of the model that `compat_build_matrix` never writes. -/
theorem compat_preserves (m : Model) :
    (Model.compat_build_matrix m).A = m.A ∧
    (Model.compat_build_matrix m).b = m.b ∧
    (Model.compat_build_matrix m).c = m.c ∧
    (Model.compat_build_matrix m).sense = m.sense ∧
    (Model.compat_build_matrix m).maximize = m.maximize ∧
    (Model.compat_build_matrix m).non_negative = m.non_negative ∧
    (Model.compat_build_matrix m).method = m.method ∧
    (Model.compat_build_matrix m).status = m.status ∧
    (Model.compat_build_matrix m).x = m.x ∧
    (Model.compat_build_matrix m).var_transform = m.var_transform := by
  rw [Model.compat_build_matrix]
  split <;> exact ⟨rfl, rfl, rfl, rfl, rfl, rfl, rfl, rfl, rfl, rfl⟩

/-! ### C6: constraint creation -/

/-- C6: `make_con(lb, ub)` fails (with the model unchanged) exactly when
`lb = -∞` and `ub = +∞`; every other bound pair — including `lb > ub` and
`lb = ub = +∞` — is appended, returning the previous constraint count as
the new dense 0-based index. -/
theorem claim_C6_make_con (m : Model) (lb ub : XR) :
    ((m.make_con lb ub).2 = none ↔ lb = XR.ninf ∧ ub = XR.pinf) ∧
    (lb = XR.ninf ∧ ub = XR.pinf → (m.make_con lb ub).1 = m) ∧
    (¬(lb = XR.ninf ∧ ub = XR.pinf) →
      (m.make_con lb ub).2 = some m.n_con ∧
      (m.make_con lb ub).1 =
        { m with con_lb := m.con_lb ++ [lb],
                 con_ub := m.con_ub ++ [ub],
                 n_con := m.n_con + 1 }) := by
  have hcond : (ub = XR.pinf ∧ lb = -ub) ↔ (lb = XR.ninf ∧ ub = XR.pinf) := by
    constructor
    · rintro ⟨h1, h2⟩
      subst h1
      exact ⟨h2, rfl⟩
    · rintro ⟨h1, h2⟩
      subst h2
      exact ⟨rfl, h1⟩
  refine ⟨?_, ?_, ?_⟩
  · rw [Model.make_con]
    by_cases h : ub = XR.pinf ∧ lb = -ub
    · rw [if_pos h]
      exact iff_of_true rfl (hcond.mp h)
    · rw [if_neg h]
      exact iff_of_false (by simp) (fun hc => h (hcond.mpr hc))
  · intro h
    rw [Model.make_con, if_pos (hcond.mpr h)]
  · intro h
    rw [Model.make_con]
    have h' : ¬(ub = XR.pinf ∧ lb = -ub) := fun hc => h (hcond.mp hc)
    rw [if_neg h']
    exact ⟨rfl, rfl⟩

/-- Witness for C6: a reversed bound pair is accepted at index 0, and the
doubly-infinite pair is rejected leaving the model unchanged. -/
theorem claim_C6_make_con_witness :
    (Model.make_con {} (XR.fin 3) (XR.fin 1)).2 = some 0 ∧
    (Model.make_con {} XR.ninf XR.pinf).1 = {} :=
  ⟨((claim_C6_make_con {} (XR.fin 3) (XR.fin 1)).2.2 (by decide)).1,
   (claim_C6_make_con {} XR.ninf XR.pinf).2.1 ⟨rfl, rfl⟩⟩

/-! ### C7: coefficient re-setting -/

theorem accum_entry_not_found (con var : ℕ) (q : XR) (l : List Entry)
    (h : ∀ e ∈ l, ¬(e.row = con ∧ e.col = var)) :
    Model.accum_entry l con var q = (l, false) := by
  induction l with
  | nil => rfl
  | cons e rest ih =>
    rw [Model.accum_entry]
    have he : ¬(e.row = con ∧ e.col = var) := h e (List.mem_cons_self e rest)
    rw [if_neg he, ih (fun e' h' => h e' (List.mem_cons_of_mem e h'))]

theorem accum_entry_found (con var : ℕ) (q : XR) (l1 l2 : List Entry) (e : Entry)
    (he : e.row = con ∧ e.col = var)
    (h1 : ∀ e' ∈ l1, ¬(e'.row = con ∧ e'.col = var)) :
    Model.accum_entry (l1 ++ e :: l2) con var q =
      (l1 ++ ⟨e.row, e.col, e.val + q⟩ :: l2, true) := by
  induction l1 with
  | nil => simp [Model.accum_entry, he]
  | cons e' rest ih =>
    have he' : ¬(e'.row = con ∧ e'.col = var) := h1 e' (List.mem_cons_self e' rest)
    have ih' := ih (fun a ha => h1 a (List.mem_cons_of_mem e' ha))
    simp only [List.cons_append, Model.accum_entry, if_neg he', List.append_eq, ih']

/-- C7 counterexample: with the accumulate flag false, re-setting a
stored constraint coefficient does **not** leave a single entry holding
the new value (a second entry is appended), and a zero value **is**
stored in the sparse set. -/
theorem claim_C7_counterexample :
    (((Model.set_con_coeff {} 0 0 (XR.fin 2) false).set_con_coeff 0 0 (XR.fin 3) false).con_coeff
       = [⟨0, 0, XR.fin 2⟩, ⟨0, 0, XR.fin 3⟩]) ∧
    ¬(((Model.set_con_coeff {} 0 0 (XR.fin 2) false).set_con_coeff 0 0 (XR.fin 3) false).con_coeff
       = [⟨0, 0, XR.fin 3⟩]) ∧
    (Model.set_con_coeff {} 0 0 (0 : XR) false).con_coeff = [⟨0, 0, 0⟩] := by
  decide

/-- C7 (amended): `set_obj_coeff` overwrites or accumulates a dense
per-variable slot; `set_con_coeff` with the accumulate flag true adds
into the first stored entry for the pair when one exists and appends a
new entry otherwise; with the flag false it always appends a new entry
(the entry holding the old value is kept, so the pair holds several
stored entries and the dense materialization takes the last); values are
stored regardless of being zero. -/
theorem claim_C7_set_coeff (m : Model) (con var : ℕ) (q : XR) :
    ((m.set_con_coeff con var q false).con_coeff = m.con_coeff ++ [⟨con, var, q⟩]) ∧
    ((∀ e ∈ m.con_coeff, ¬(e.row = con ∧ e.col = var)) →
      (m.set_con_coeff con var q true).con_coeff = m.con_coeff ++ [⟨con, var, q⟩]) ∧
    (∀ (l1 l2 : List Entry) (e : Entry), m.con_coeff = l1 ++ e :: l2 →
      (e.row = con ∧ e.col = var) → (∀ e' ∈ l1, ¬(e'.row = con ∧ e'.col = var)) →
      (m.set_con_coeff con var q true).con_coeff = l1 ++ ⟨e.row, e.col, e.val + q⟩ :: l2) ∧
    (∀ v : ℕ,
      (m.set_obj_coeff v q false).obj_coeff = m.obj_coeff.set v q ∧
      (m.set_obj_coeff v q true).obj_coeff = m.obj_coeff.set v (m.obj_coeff.getD v 0 + q)) := by
  refine ⟨?_, ?_, ?_, ?_⟩
  · rw [Model.set_con_coeff]
    simp
  · intro h
    rw [Model.set_con_coeff]
    simp [accum_entry_not_found con var q m.con_coeff h]
  · intro l1 l2 e hsplit he h1
    rw [Model.set_con_coeff]
    simp [hsplit, accum_entry_found con var q l1 l2 e he h1]
  · intro v
    constructor
    · rw [Model.set_obj_coeff]
      simp
    · rw [Model.set_obj_coeff]
      simp

/-- Witness for C7's amended statement at concrete inputs. -/
theorem claim_C7_set_coeff_witness :
    ((Model.set_con_coeff {} 1 2 (XR.fin 5) true).con_coeff = [⟨1, 2, XR.fin 5⟩]) ∧
    (({ con_coeff := [⟨1, 2, XR.fin 5⟩] : Model }.set_con_coeff 1 2 (XR.fin 4) true).con_coeff
       = [⟨1, 2, XR.fin 9⟩]) :=
  ⟨by
    have h := (claim_C7_set_coeff {} 1 2 (XR.fin 5)).2.1 (by decide)
    simpa using h,
   by
    have h := (claim_C7_set_coeff { con_coeff := [⟨1, 2, XR.fin 5⟩] : Model } 1 2
      (XR.fin 4)).2.2.1 [] [] ⟨1, 2, XR.fin 5⟩ rfl (by decide) (by decide)
    rw [h]
    with_unfolding_all rfl⟩

/-! ### C8: adapter status normalization -/

/-- C8: the adapter's status normalization, for a simplex run, maps the
backend state through the exact priority cascade Optimal / Infeasible /
Unbounded / InfeasibleOrUnbounded / Error of the source, and for an
interior-point run maps `GLP_OPT` to Optimal, `GLP_NOFEAS` to
InfeasibleOrUnbounded and anything else to Error — never producing
Unbounded or Infeasible; `glpk` consults exactly these two maps. -/
theorem claim_C8_status_normalization (st res dst ist : ℕ) :
    (st = GLP_OPT → status_from_simplex st res dst = Status.optimal) ∧
    (st ≠ GLP_OPT → (st = GLP_NOFEAS ∨ res = GLP_ENOPFS) →
      status_from_simplex st res dst = Status.infeasible) ∧
    (st ≠ GLP_OPT → ¬(st = GLP_NOFEAS ∨ res = GLP_ENOPFS) → st = GLP_UNBND →
      status_from_simplex st res dst = Status.unbounded) ∧
    (st ≠ GLP_OPT → ¬(st = GLP_NOFEAS ∨ res = GLP_ENOPFS) → st ≠ GLP_UNBND →
      (dst = GLP_NOFEAS ∨ res = GLP_ENODFS) →
      status_from_simplex st res dst = Status.infeasible_or_unbounded) ∧
    (st ≠ GLP_OPT → ¬(st = GLP_NOFEAS ∨ res = GLP_ENOPFS) → st ≠ GLP_UNBND →
      ¬(dst = GLP_NOFEAS ∨ res = GLP_ENODFS) →
      status_from_simplex st res dst = Status.error) ∧
    (ist = GLP_OPT → status_from_interior ist = Status.optimal) ∧
    (ist ≠ GLP_OPT → ist = GLP_NOFEAS → status_from_interior ist = Status.infeasible_or_unbounded) ∧
    (ist ≠ GLP_OPT → ist ≠ GLP_NOFEAS → status_from_interior ist = Status.error) ∧
    (status_from_interior ist ≠ Status.unbounded ∧
     status_from_interior ist ≠ Status.infeasible) ∧
    (∀ (m : Model) (r : GlpkResult), m.method ≠ Method.interior →
      ((m.glpk r).1).status = status_from_simplex r.simplex_status r.simplex_res r.dual_status) ∧
    (∀ (m : Model) (r : GlpkResult), m.method = Method.interior →
      ((m.glpk r).1).status = status_from_interior r.interior_status) := by
  refine ⟨?_, ?_, ?_, ?_, ?_, ?_, ?_, ?_, ?_, ?_, ?_⟩
  · intro h
    rw [status_from_simplex, if_pos h]
  · intro h1 h2
    rw [status_from_simplex, if_neg h1, if_pos h2]
  · intro h1 h2 h3
    rw [status_from_simplex, if_neg h1, if_neg h2, if_pos h3]
  · intro h1 h2 h3 h4
    rw [status_from_simplex, if_neg h1, if_neg h2, if_neg h3, if_pos h4]
  · intro h1 h2 h3 h4
    rw [status_from_simplex, if_neg h1, if_neg h2, if_neg h3, if_neg h4]
  · intro h
    rw [status_from_interior, if_pos h]
  · intro h1 h2
    rw [status_from_interior, if_neg h1, if_pos h2]
  · intro h1 h2
    rw [status_from_interior, if_neg h1, if_neg h2]
  · by_cases h1 : ist = GLP_OPT
    · rw [status_from_interior, if_pos h1]
      exact ⟨by decide, by decide⟩
    · by_cases h2 : ist = GLP_NOFEAS
      · rw [status_from_interior, if_neg h1, if_pos h2]
        exact ⟨by decide, by decide⟩
      · rw [status_from_interior, if_neg h1, if_neg h2]
        exact ⟨by decide, by decide⟩
  · intro m r h
    by_cases hst : status_from_simplex r.simplex_status r.simplex_res r.dual_status
        = Status.optimal <;>
      simp [Model.glpk, h, hst]
  · intro m r h
    by_cases hst : status_from_interior r.interior_status = Status.optimal <;>
      simp [Model.glpk, h, hst]

/-- Witness for C8 at concrete backend states. -/
theorem claim_C8_status_normalization_witness :
    status_from_simplex GLP_NOFEAS 0 GLP_FEAS = Status.infeasible ∧
    status_from_interior GLP_NOFEAS = Status.infeasible_or_unbounded :=
  ⟨(claim_C8_status_normalization GLP_NOFEAS 0 GLP_FEAS 0).2.1 (by decide) (Or.inl rfl),
   (claim_C8_status_normalization 0 0 0 GLP_NOFEAS).2.2.2.2.2.2.1 (by decide) rfl⟩

/-! ### C1: the upper-bounded-only substitution -/

/-- C1: the code bug, evaluated.  For the variable with `lb = -∞` and
`ub = 5`, `to_canonical_form` does **not** record the upper-bounded-only
transform `(none, −1, ub)` and does **not** negate the variable's
objective coefficient: the branch guard in the source tests
`lb == inf` (positive infinity), so the `(-∞, 5]` variable falls into
the shift branch, recording `(none, +1, −lb) = (none, +1, +∞)` and
leaving the objective coefficient unnegated. -/
theorem claim_C1_upper_branch_never_fires :
    (Model.to_canonical_form modelC1).map Model.var_transform
      = some [(-1, XR.fin 1, XR.pinf)] ∧
    (Model.to_canonical_form modelC1).map Model.var_transform
      ≠ some [(-1, XR.fin (-1), XR.fin 5)] ∧
    (Model.to_canonical_form modelC1).map (fun m => m.obj_coeff.getD 0 0)
      = some (XR.fin 1) := by
  decide

/-! ### C5: the solution mapper -/

theorem original_x_getD (m : Model) (v : ℕ) (hv : v < m.var_transform.length) :
    (Model.original_x m).getD v 0 =
      m.x.getD v 0 * (m.var_transform.getD v (-1, 1, 0)).2.1
        + (m.var_transform.getD v (-1, 1, 0)).2.2
        - (if 0 ≤ (m.var_transform.getD v (-1, 1, 0)).1
           then m.x.getD (m.var_transform.getD v (-1, 1, 0)).1.toNat 0 else 0) := by
  rw [Model.original_x, getD_map_range _ _ hv]

/-- C5: for every original variable `v` with recorded transform
`(substitute, coeff, offset)`, the mapper returns
`solved(v)·coeff + offset − solved(substitute)` when a substitute index
is present (encoded as a nonnegative index) and subtracts nothing
otherwise; the free-variable split records `(index of x2, +1, 0)` where
`index of x2` is the freshly created variable, so the mapped value is
`solved(x1) − solved(x2)`. -/
theorem claim_C5_solution_mapper :
    (∀ (m : Model) (v : ℕ), v < m.var_transform.length →
      (Model.original_x m).getD v 0 =
        m.x.getD v 0 * (m.var_transform.getD v (-1, 1, 0)).2.1
          + (m.var_transform.getD v (-1, 1, 0)).2.2
          - (if 0 ≤ (m.var_transform.getD v (-1, 1, 0)).1
             then m.x.getD (m.var_transform.getD v (-1, 1, 0)).1.toNat 0 else 0)) ∧
    (∀ (m : Model) (v : ℕ), v < m.var_transform.length →
      (m.var_transform.getD v (-1, 1, 0)).1 < 0 →
      (Model.original_x m).getD v 0 =
        m.x.getD v 0 * (m.var_transform.getD v (-1, 1, 0)).2.1
          + (m.var_transform.getD v (-1, 1, 0)).2.2) ∧
    (∀ (m : Model) (i : ℕ),
      m.var_lb.getD i 0 = XR.ninf → m.var_ub.getD i 0 = XR.pinf →
      (Model.canon_var_step m i).map Model.var_transform
        = some (m.var_transform ++ [(Int.ofNat m.n_var, (1 : XR), (0 : XR))]) ∧
      (Model.canon_var_step m i).map Model.n_var = some (m.n_var + 1)) ∧
    (∀ (m : Model) (v k : ℕ), v < m.var_transform.length →
      m.var_transform.getD v (-1, 1, 0) = (Int.ofNat k, 1, 0) →
      (Model.original_x m).getD v 0 = m.x.getD v 0 - m.x.getD k 0) := by
  refine ⟨fun m v hv => original_x_getD m v hv, ?_, ?_, ?_⟩
  · intro m v hv hneg
    rw [original_x_getD m v hv, if_neg (by omega), XR.sub_zero_xr]
  · intro m i hlb hub
    rw [Model.canon_var_step.eq_def, hlb, hub, if_pos ⟨rfl, rfl⟩]
    exact ⟨rfl, rfl⟩
  · intro m v k hv ht
    rw [original_x_getD m v hv, ht]
    rw [if_pos (show (0 : Int) ≤ (Int.ofNat k, (1 : XR), (0 : XR)).1 from Int.ofNat_nonneg k)]
    exact XR.mul_one_add_zero_sub _ _

theorem claim_C5_solution_mapper_witness :
    (Model.original_x modelC5).getD 0 0 = modelC5.x.getD 0 0 - modelC5.x.getD 1 0 ∧
    (Model.canon_var_step { var_lb := [XR.ninf], var_ub := [XR.pinf], n_var := 1 : Model } 0).map
        Model.var_transform = some ([] ++ [(Int.ofNat 1, (1 : XR), (0 : XR))]) :=
  ⟨claim_C5_solution_mapper.2.2.2 modelC5 0 1 (by decide) (by decide),
   (claim_C5_solution_mapper.2.2.1
     { var_lb := [XR.ninf], var_ub := [XR.pinf], n_var := 1 : Model } 0 (by decide) (by decide)).1⟩

/-! ### C10: a failed solve leaves the solution vector intact -/

/-- C10: on both solving paths, when the solve reports failure the
stored solution vector `x` is exactly what it was before the call: the
`rat` path only assigns `x` under `if(res)`, and the adapter path only
assigns `x` under `status == optimal`. -/
theorem claim_C10_failed_solve_keeps_x :
    (∀ (fuel : ℕ) (m m' : Model), Model.solve_rat fuel m = some (m', false) → m'.x = m.x) ∧
    (∀ (m m' : Model) (r : GlpkResult), Model.solve_float m r = some (m', false) → m'.x = m.x) ∧
    (∀ (m : Model) (r : GlpkResult), (m.glpk r).2 = false → ((m.glpk r).1).x = m.x) := by
  have hglpk : ∀ (m : Model) (r : GlpkResult), (m.glpk r).2 = false → ((m.glpk r).1).x = m.x := by
    intro m r h
    by_cases hst : (if m.method = Method.interior then status_from_interior r.interior_status
        else status_from_simplex r.simplex_status r.simplex_res r.dual_status) = Status.optimal
    · rw [Model.glpk] at h
      simp [hst] at h
    · rw [Model.glpk]
      simp [hst]
  refine ⟨?_, ?_, hglpk⟩
  · intro fuel m m' h
    simp only [Model.solve_rat] at h
    split at h
    case isFalse => exact absurd h (by simp)
    split at h
    case isFalse => exact absurd h (by simp)
    split at h
    case h_1 => exact absurd h (by simp)
    case h_2 lp heq =>
      split at h
      case h_1 => exact absurd h (by simp)
      case h_2 lp' res heq2 =>
        rw [Option.some_inj] at h
        have hres : res = false := congrArg Prod.snd h
        have hm' := congrArg Prod.fst h
        simp only at hm'
        subst hres
        rw [← hm']
        simp only [if_false]
        exact (compat_preserves m).2.2.2.2.2.2.2.2.1
  · intro m m' r h
    simp only [Model.solve_float] at h
    split at h
    case isFalse => exact absurd h (by simp)
    rw [Option.some_inj] at h
    have hres : (Model.glpk (Model.compat_build_matrix m) r).2 = false := congrArg Prod.snd h
    have hm' := congrArg Prod.fst h
    simp only at hm'
    rw [← hm']
    have hx := hglpk (Model.compat_build_matrix m) r hres
    rw [hx]
    exact (compat_preserves m).2.2.2.2.2.2.2.2.1

theorem claim_C10_failed_solve_keeps_x_witness :
    Model.solve_rat 20 modelC10
      = some (((Model.solve_rat 20 modelC10).getD ({}, true)).1, false) ∧
    ((Model.solve_rat 20 modelC10).getD ({}, true)).1.x = modelC10.x ∧
    (({} : Model).glpk glpkNofeas).2 = false ∧
    ((({} : Model).glpk glpkNofeas).1).x = ({} : Model).x := by
  have h1 : Model.solve_rat 20 modelC10
      = some (((Model.solve_rat 20 modelC10).getD ({}, true)).1, false) := by
    with_unfolding_all rfl
  have h3 : (({} : Model).glpk glpkNofeas).2 = false := by with_unfolding_all rfl
  exact ⟨h1, claim_C10_failed_solve_keeps_x.1 20 modelC10 _ h1, h3,
    claim_C10_failed_solve_keeps_x.2.2 {} glpkNofeas h3⟩

/-! ### C9: frame of canonical_form and solve -/

/-- C9 counterexample: on a dense-built exact-rational model, a
successful `solve()` mutates more of the receiver than `status` and `x`:
the constraint counter `n_con` (and with it the compat coefficient and
bound vectors) is left populated, not restored. -/
theorem claim_C9_counterexample :
    (Model.solve_rat 20 modelC9).map (fun p => p.1.n_con) = some 1 ∧
    modelC9.n_con = 0 ∧
    (Model.solve_rat 20 modelC9).map (fun p => p.1.n_con) ≠ some modelC9.n_con := by
  refine ⟨by with_unfolding_all rfl, rfl, ?_⟩
  intro hc
  rw [show (Model.solve_rat 20 modelC9).map (fun p => p.1.n_con) = some 1 by
    with_unfolding_all rfl] at hc
  have h1 : (1 : ℕ) = modelC9.n_con := Option.some_inj.mp hc
  rw [show modelC9.n_con = 0 from rfl] at h1
  exact absurd h1 (by decide)

/-- C9 (amended): `canonical_form()` never mutates its receiver;
`solve()` restores `n_var` on both paths; the exact-rational `solve()`
runs the canonical-form transformation and the simplex on a clone, and
mutates the receiver only by setting `status`, on success the solution
vector `x`, and — when the model was given in dense form — by leaving
the compat representation (coefficient and bound vectors and the
constraint counter `n_con`) populated from `A, b, c, sense`. -/
theorem claim_C9_frame :
    (∀ m : Model, (Model.canonical_form m).1 = m) ∧
    (∀ (fuel : ℕ) (m m' : Model) (res : Bool), Model.solve_rat fuel m = some (m', res) →
      m'.n_var = m.n_var ∧
      m'.A = m.A ∧ m'.b = m.b ∧ m'.c = m.c ∧ m'.sense = m.sense ∧
      m'.maximize = m.maximize ∧ m'.non_negative = m.non_negative ∧
      m'.method = m.method ∧ m'.var_transform = m.var_transform ∧
      m'.obj_coeff = (Model.compat_build_matrix m).obj_coeff ∧
      m'.con_coeff = (Model.compat_build_matrix m).con_coeff ∧
      m'.var_lb = (Model.compat_build_matrix m).var_lb ∧
      m'.var_ub = (Model.compat_build_matrix m).var_ub ∧
      m'.con_lb = (Model.compat_build_matrix m).con_lb ∧
      m'.con_ub = (Model.compat_build_matrix m).con_ub ∧
      m'.n_con = (Model.compat_build_matrix m).n_con ∧
      (res = false → m'.x = m.x)) ∧
    (∀ (m m' : Model) (r : GlpkResult) (res : Bool), Model.solve_float m r = some (m', res) →
      m'.n_var = m.n_var) := by
  refine ⟨fun m => rfl, ?_, ?_⟩
  · intro fuel m m' res h
    simp only [Model.solve_rat] at h
    split at h
    case isFalse => exact absurd h (by simp)
    split at h
    case isFalse => exact absurd h (by simp)
    split at h
    case h_1 => exact absurd h (by simp)
    case h_2 lp heq =>
      split at h
      case h_1 => exact absurd h (by simp)
      case h_2 lp' res2 heq2 =>
        rw [Option.some_inj] at h
        have hres : res2 = res := congrArg Prod.snd h
        have hm' := congrArg Prod.fst h
        simp only at hm'
        subst hres
        rw [← hm']
        have hc := compat_preserves m
        obtain ⟨hA, hb, hcc, hsen, hmax, hnn, hmeth, _, hx, hvt⟩ := hc
        cases res2 <;>
      refine ⟨rfl, hA, hb, hcc, hsen, hmax, hnn, hmeth, hvt, rfl, rfl, rfl, rfl, rfl, rfl, rfl, ?_⟩
        · intro _
          exact hx
        · intro hfalse
          exact absurd hfalse (by simp)
  · intro m m' r res h
    simp only [Model.solve_float] at h
    split at h
    case isFalse => exact absurd h (by simp)
    rw [Option.some_inj] at h
    have hm' := congrArg Prod.fst h
    simp only at hm'
    rw [← hm']

/-! ### C3 and C4: simplex pricing and termination -/

theorem range_find_eq_some {p : ℕ → Bool} {n : ℕ} : ∀ {j : ℕ},
    (List.range n).find? p = some j ↔
      j < n ∧ p j = true ∧ ∀ k, k < j → p k = false := by
  induction n with
  | zero => intro j; simp
  | succ n ih =>
    intro j
    rw [List.range_succ, List.find?_append]
    cases hfind : (List.range n).find? p with
    | some a =>
      rw [Option.or_some]
      obtain ⟨ha, hpa, hfirst⟩ := ih.mp hfind
      constructor
      · intro hj
        rw [Option.some_inj] at hj
        subst hj
        exact ⟨Nat.lt_succ_of_lt ha, hpa, hfirst⟩
      · rintro ⟨hj, hpj, hjfirst⟩
        rcases Nat.lt_or_ge j n with hlt | hge
        · exact (hfind.symm.trans (ih.mpr ⟨hlt, hpj, hjfirst⟩))
        · exact absurd hpa (by rw [hjfirst a (Nat.lt_of_lt_of_le ha hge)]; simp)
    | none =>
      rw [Option.none_or]
      have hnone : ∀ x ∈ List.range n, ¬ p x := List.find?_eq_none.mp hfind
      have hlt : ∀ k, k < n → p k = false := fun k hk =>
        Bool.eq_false_iff.mpr (hnone k (List.mem_range.mpr hk))
      cases hpn : p n with
      | true =>
        simp only [List.find?_cons, hpn, List.find?_nil]
        constructor
        · intro hj
          rw [Option.some_inj] at hj
          subst hj
          exact ⟨Nat.lt_succ_self n, hpn, hlt⟩
        · rintro ⟨hj, hpj, hjfirst⟩
          rcases Nat.lt_or_ge j n with hjlt | hjge
          · exact absurd hpj (by rw [hlt j hjlt]; simp)
          · have : j = n := Nat.le_antisymm (Nat.lt_succ_iff.mp hj) hjge
            rw [this]
      | false =>
        simp only [List.find?_cons, hpn, List.find?_nil]
        constructor
        · intro hj
          exact absurd hj (by simp)
        · rintro ⟨hj, hpj, hjfirst⟩
          rcases Nat.lt_or_ge j n with hjlt | hjge
          · exact absurd hpj (by rw [hlt j hjlt]; simp)
          · have : j = n := Nat.le_antisymm (Nat.lt_succ_iff.mp hj) hjge
            subst this
            exact absurd hpj (by rw [hpn]; simp)

/-- Once the ratio-test fold has a candidate, it keeps one. -/
theorem leaving_fold_some (s : SState) (d : ℕ → XR) (l : List ℕ) (acc : Option ℕ × XR)
    (hacc : acc.1 ≠ none) :
    (l.foldl (fun acc i =>
      if 0 < d i then
        let ratio := s.xv.getD (s.basic.getD i 0) 0 / d i
        if ratio < acc.2 ∨ acc.1 = none then (some i, ratio) else acc
      else acc) acc).1 ≠ none := by
  induction l generalizing acc with
  | nil => exact hacc
  | cons i t ih =>
    rw [List.foldl_cons]
    apply ih
    by_cases h1 : 0 < d i
    · rw [if_pos h1]
      by_cases h2 : s.xv.getD (s.basic.getD i 0) 0 / d i < acc.2 ∨ acc.1 = none
      · rw [if_pos h2]
        simp
      · rw [if_neg h2]
        exact hacc
    · rw [if_neg h1]
      exact hacc

theorem leaving_fold_none_iff (s : SState) (d : ℕ → XR) (l : List ℕ) (acc : Option ℕ × XR) :
    (l.foldl (fun acc i =>
      if 0 < d i then
        let ratio := s.xv.getD (s.basic.getD i 0) 0 / d i
        if ratio < acc.2 ∨ acc.1 = none then (some i, ratio) else acc
      else acc) acc).1 = none ↔ (acc.1 = none ∧ ∀ i ∈ l, ¬(0 < d i)) := by
  induction l generalizing acc with
  | nil => simp
  | cons i t ih =>
    rw [List.foldl_cons]
    by_cases h1 : 0 < d i
    · rw [if_pos h1]
      by_cases h2 : s.xv.getD (s.basic.getD i 0) 0 / d i < acc.2 ∨ acc.1 = none
      · rw [if_pos h2]
        rw [ih]
        simp only [List.mem_cons]
        constructor
        · rintro ⟨hc, -⟩
          exact absurd hc (by simp)
        · rintro ⟨-, hall⟩
          exact absurd h1 (hall i (Or.inl rfl))
      · rw [if_neg h2]
        rw [ih]
        simp only [List.mem_cons]
        constructor
        · rintro ⟨hc, -⟩
          exact absurd (Or.inr hc) h2
        · rintro ⟨-, hall⟩
          exact absurd h1 (hall i (Or.inl rfl))
    · rw [if_neg h1]
      rw [ih]
      simp only [List.mem_cons]
      constructor
      · rintro ⟨hc, hall⟩
        exact ⟨hc, fun j hj => hj.elim (fun he => he ▸ h1) (hall j)⟩
      · rintro ⟨hc, hall⟩
        exact ⟨hc, fun j hj => hall j (Or.inr hj)⟩

/-- The ratio test returns no leaving row exactly when no basic row has
a strictly positive direction coefficient. -/
theorem leaving_none_iff (s : SState) (d : ℕ → XR) :
    (s.leaving d).1 = none ↔ ∀ i, i < s.m → ¬(0 < d i) := by
  rw [SState.leaving, leaving_fold_none_iff]
  constructor
  · rintro ⟨-, hall⟩
    exact fun i hi => hall i (List.mem_range.mpr hi)
  · intro hall
    exact ⟨rfl, fun i hi => hall i (List.mem_range.mp hi)⟩

/-- Any terminal status of the simplex loop is one of the three. -/
theorem simplex_loop_status (fuel : ℕ) (s : SState) (st : Status) (xv : List XR)
    (h : simplex_loop fuel s = some (st, xv)) :
    st = Status.optimal ∨ st = Status.infeasible ∨ st = Status.unbounded := by
  induction fuel generalizing s with
  | zero => exact absurd h (by simp [simplex_loop])
  | succ fuel ih =>
    rw [simplex_loop] at h
    cases hent : s.entering with
    | none =>
      rw [hent] at h
      by_cases hp : s.phase_one
      · rw [if_pos hp] at h
        by_cases ha : s.artificial_positive
        · rw [if_pos ha, Option.some_inj] at h
          exact Or.inr (Or.inl (congrArg Prod.fst h).symm)
        · rw [if_neg ha] at h
          exact ih _ h
      · rw [if_neg hp, Option.some_inj] at h
        exact Or.inl (congrArg Prod.fst h).symm
    | some ent =>
      rw [hent] at h
      simp only at h
      cases hlv : (s.leaving (s.binv_as ent)).1 with
      | none =>
        rw [hlv, Option.some_inj] at h
        exact Or.inr (Or.inr (congrArg Prod.fst h).symm)
      | some l =>
        rw [hlv] at h
        exact ih _ h

/-- `simplex` hands back `status == optimal` as its boolean result. -/
theorem simplex_res_status (fuel : ℕ) (mdl m' : Model) (res : Bool)
    (h : Model.simplex fuel mdl = some (m', res)) :
    (res = true ↔ m'.status = Status.optimal) ∧
    (m'.status = Status.optimal ∨ m'.status = Status.infeasible ∨
     m'.status = Status.unbounded) := by
  rw [Model.simplex] at h
  cases hloop : simplex_loop fuel (Model.simplex_init mdl) with
  | none => rw [hloop] at h; exact absurd h (by simp)
  | some p =>
    rw [hloop] at h
    simp only [Option.some_inj] at h
    have hm' := congrArg Prod.fst h
    have hres := congrArg Prod.snd h
    simp only at hm' hres
    have hstatus : m'.status = p.1 := by rw [← hm']
    constructor
    · rw [← hres, hstatus]
      simp
    · rw [hstatus]
      exact simplex_loop_status fuel _ p.1 p.2 (by rw [hloop])

/-- `solve_rat` hands the simplex's status back on the receiver and
returns true exactly on optimal. -/
theorem solve_rat_res_status (fuel : ℕ) (m m' : Model) (res : Bool)
    (h : Model.solve_rat fuel m = some (m', res)) :
    (res = true ↔ m'.status = Status.optimal) ∧
    (m'.status = Status.optimal ∨ m'.status = Status.infeasible ∨
     m'.status = Status.unbounded) := by
  simp only [Model.solve_rat] at h
  split at h
  case isFalse => exact absurd h (by simp)
  split at h
  case isFalse => exact absurd h (by simp)
  split at h
  case h_1 => exact absurd h (by simp)
  case h_2 lp heq =>
    split at h
    case h_1 => exact absurd h (by simp)
    case h_2 lp' res2 heq2 =>
      rw [Option.some_inj] at h
      have hres : res2 = res := congrArg Prod.snd h
      have hm' := congrArg Prod.fst h
      simp only at hm'
      subst hres
      have hsim := simplex_res_status fuel lp lp' res2 heq2
      have hstat : m'.status = lp'.status := by
        rw [← hm']
        cases res2 <;> rfl
      rw [hstat]
      exact hsim

/-- C3: in every simplex iteration the entering variable is the first
nonbasic variable in increasing index order whose exact reduced cost
`c_j − πᵀA_j` is strictly negative, with real-variable cost read as `0`
during phase 1; and a phase-2 iteration with no entering variable
terminates with status Optimal. -/
theorem claim_C3_pricing :
    (∀ (s : SState) (j : ℕ), s.entering = some j ↔
      (j < s.n ∧ ¬(s.is_basic.getD j false = true) ∧ s.rc j < 0 ∧
       ∀ k, k < j → (s.is_basic.getD k false = true ∨ ¬(s.rc k < 0)))) ∧
    (∀ (s : SState) (j : ℕ), s.phase_one = true →
      s.rc j = 0 - xsum s.m (fun i => s.piT i * s.A i j)) ∧
    (∀ (fuel : ℕ) (s : SState), s.phase_one = false → s.entering = none →
      simplex_loop (fuel + 1) s = some (Status.optimal, s.xv)) := by
  refine ⟨?_, ?_, ?_⟩
  · intro s j
    rw [SState.entering, range_find_eq_some]
    constructor
    · rintro ⟨hj, hp, hfirst⟩
      rw [Bool.and_eq_true, Bool.not_eq_true', decide_eq_true_eq] at hp
      refine ⟨hj, by rw [hp.1]; simp, hp.2, ?_⟩
      intro k hk
      have hfk := hfirst k hk
      rw [Bool.and_eq_false_iff] at hfk
      rcases hfk with hb | hrc
      · refine Or.inl ?_
        cases hx : s.is_basic.getD k false
        · rw [hx] at hb
          exact absurd hb (by simp)
        · rfl
      · exact Or.inr (by
          rw [decide_eq_false_iff_not] at hrc
          exact hrc)
    · rintro ⟨hj, hb, hrc, hfirst⟩
      refine ⟨hj, ?_, ?_⟩
      · rw [Bool.and_eq_true, Bool.not_eq_true', decide_eq_true_eq]
        refine ⟨?_, hrc⟩
        cases hx : s.is_basic.getD j false
        · rfl
        · exact absurd hx hb
      · intro k hk
        rw [Bool.and_eq_false_iff]
        rcases hfirst k hk with hbk | hrck
        · exact Or.inl (by rw [hbk]; rfl)
        · exact Or.inr (decide_eq_false hrck)
  · intro s j hp
    rw [SState.rc, if_pos hp]
  · intro fuel s hp hent
    rw [simplex_loop, hent, if_neg (by rw [hp]; exact Bool.false_ne_true)]

theorem claim_C3_pricing_witness :
    (stateC3.entering = none → simplex_loop 1 stateC3 = some (Status.optimal, stateC3.xv)) ∧
    simplex_loop 1 stateC3 = some (Status.optimal, [0, 1]) := by
  have hent : stateC3.entering = none := by with_unfolding_all rfl
  have h := claim_C3_pricing.2.2 0 stateC3 rfl hent
  exact ⟨fun _ => h, h⟩

/-- C4: the exact simplex terminates only with Optimal, Infeasible or
Unbounded, and its boolean result (returned through `solve`) is true
exactly on Optimal; Infeasible is reported, when phase 1 prices out,
exactly when some artificial variable is strictly positive (otherwise
the loop switches `cB` to the real cost vector and continues in
phase 2); Unbounded is reported, after an entering variable is found,
exactly when the ratio test sees no strictly positive direction
coefficient. -/
theorem claim_C4_termination :
    (∀ (fuel : ℕ) (s : SState) (st : Status) (xv : List XR),
      simplex_loop fuel s = some (st, xv) →
      st = Status.optimal ∨ st = Status.infeasible ∨ st = Status.unbounded) ∧
    (∀ (fuel : ℕ) (mdl m' : Model) (res : Bool), Model.simplex fuel mdl = some (m', res) →
      (res = true ↔ m'.status = Status.optimal)) ∧
    (∀ (fuel : ℕ) (m m' : Model) (res : Bool), Model.solve_rat fuel m = some (m', res) →
      (res = true ↔ m'.status = Status.optimal) ∧
      (m'.status = Status.optimal ∨ m'.status = Status.infeasible ∨
       m'.status = Status.unbounded)) ∧
    (∀ s : SState, s.artificial_positive = true ↔
      ∃ k, k < s.m ∧ 0 < s.xv.getD (s.n + k) 0) ∧
    (∀ (fuel : ℕ) (s : SState), s.entering = none → s.phase_one = true →
      (s.artificial_positive = true →
        simplex_loop (fuel + 1) s = some (Status.infeasible, s.xv)) ∧
      (s.artificial_positive = false →
        simplex_loop (fuel + 1) s = simplex_loop fuel s.phase2_switch ∧
        s.phase2_switch.phase_one = false ∧
        s.phase2_switch.cB = (List.range s.m).map (fun i =>
          if s.basic.getD i 0 > s.n then 0 else s.c (s.basic.getD i 0)))) ∧
    (∀ (fuel : ℕ) (s : SState) (j : ℕ), s.entering = some j →
      ((s.leaving (s.binv_as j)).1 = none ↔ ∀ i, i < s.m → ¬(0 < s.binv_as j i)) ∧
      ((s.leaving (s.binv_as j)).1 = none →
        simplex_loop (fuel + 1) s = some (Status.unbounded, s.xv))) := by
  refine ⟨simplex_loop_status, ?_, ?_, ?_, ?_, ?_⟩
  · intro fuel mdl m' res h
    exact (simplex_res_status fuel mdl m' res h).1
  · intro fuel m m' res h
    exact solve_rat_res_status fuel m m' res h
  · intro s
    rw [SState.artificial_positive, List.any_eq_true]
    constructor
    · rintro ⟨k, hk, hpos⟩
      exact ⟨k, List.mem_range.mp hk, of_decide_eq_true hpos⟩
    · rintro ⟨k, hk, hpos⟩
      exact ⟨k, List.mem_range.mpr hk, decide_eq_true hpos⟩
  · intro fuel s hent hp
    constructor
    · intro ha
      rw [simplex_loop, hent, if_pos hp, if_pos ha]
    · intro ha
      refine ⟨?_, rfl, rfl⟩
      rw [simplex_loop, hent, if_pos hp, if_neg (by rw [ha]; exact Bool.false_ne_true)]
  · intro fuel s j hent
    refine ⟨leaving_none_iff s _, ?_⟩
    intro hlv
    rw [simplex_loop, hent]
    simp only [hlv]

theorem claim_C4_termination_witness :
    Model.simplex 20 modelC4
      = some (((Model.simplex 20 modelC4).getD ({}, true)).1, false) ∧
    (false = true ↔ ((Model.simplex 20 modelC4).getD ({}, true)).1.status = Status.optimal) ∧
    ((Model.simplex 20 modelC4).getD ({}, true)).1.status = Status.infeasible := by
  have h1 : Model.simplex 20 modelC4
      = some (((Model.simplex 20 modelC4).getD ({}, true)).1, false) := by
    with_unfolding_all rfl
  have h3 : ((Model.simplex 20 modelC4).getD ({}, true)).1.status = Status.infeasible := by
    with_unfolding_all rfl
  exact ⟨h1, claim_C4_termination.2.1 20 modelC4 _ false h1, h3⟩

/-! ### C2: postconditions of to_canonical_form -/

theorem adjust_bound_fields (m : Model) (r : ℕ) (d : XR) :
    (Model.adjust_bound m r d).con_lb.length = m.con_lb.length ∧
    (Model.adjust_bound m r d).con_ub.length = m.con_ub.length ∧
    (Model.adjust_bound m r d).n_con = m.n_con ∧
    (Model.adjust_bound m r d).maximize = m.maximize ∧
    (Model.adjust_bound m r d).var_transform = m.var_transform ∧
    (Model.adjust_bound m r d).n_var = m.n_var := by
  rw [Model.adjust_bound]
  split
  · exact ⟨by simp, rfl, rfl, rfl, rfl, rfl⟩
  split
  · exact ⟨rfl, by simp, rfl, rfl, rfl, rfl⟩
  · exact ⟨rfl, rfl, rfl, rfl, rfl, rfl⟩

theorem upper_entry_loop_fields (x : ℕ) (mu : XR) :
    ∀ (l : List Entry) (m : Model),
    ((Model.upper_entry_loop x mu m l).1).con_lb.length = m.con_lb.length ∧
    ((Model.upper_entry_loop x mu m l).1).con_ub.length = m.con_ub.length ∧
    ((Model.upper_entry_loop x mu m l).1).n_con = m.n_con ∧
    ((Model.upper_entry_loop x mu m l).1).maximize = m.maximize ∧
    ((Model.upper_entry_loop x mu m l).1).var_transform = m.var_transform ∧
    ((Model.upper_entry_loop x mu m l).1).n_var = m.n_var := by
  intro l
  induction l with
  | nil => intro m; exact ⟨rfl, rfl, rfl, rfl, rfl, rfl⟩
  | cons e t ih =>
    intro m
    rw [Model.upper_entry_loop]
    by_cases hc : e.col = x
    · rw [if_pos hc]
      have h1 := adjust_bound_fields m e.row (e.val * mu)
      have h2 := ih (Model.adjust_bound m e.row (e.val * mu))
      exact ⟨h2.1.trans h1.1, h2.2.1.trans h1.2.1, h2.2.2.1.trans h1.2.2.1,
        h2.2.2.2.1.trans h1.2.2.2.1, h2.2.2.2.2.1.trans h1.2.2.2.2.1,
        h2.2.2.2.2.2.trans h1.2.2.2.2.2⟩
    · rw [if_neg hc]
      exact ih m

theorem shift_bounds_fields (x : ℕ) (lb : XR) :
    ∀ (l : List Entry) (m : Model),
    (Model.shift_bounds x lb m l).con_lb.length = m.con_lb.length ∧
    (Model.shift_bounds x lb m l).con_ub.length = m.con_ub.length ∧
    (Model.shift_bounds x lb m l).n_con = m.n_con ∧
    (Model.shift_bounds x lb m l).maximize = m.maximize ∧
    (Model.shift_bounds x lb m l).var_transform = m.var_transform ∧
    (Model.shift_bounds x lb m l).n_var = m.n_var := by
  intro l
  induction l with
  | nil => intro m; exact ⟨rfl, rfl, rfl, rfl, rfl, rfl⟩
  | cons e t ih =>
    intro m
    rw [Model.shift_bounds]
    by_cases hc : e.col = x
    · rw [if_pos hc]
      have h1 := adjust_bound_fields m e.row (e.val * lb)
      have h2 := ih (Model.adjust_bound m e.row (e.val * lb))
      exact ⟨h2.1.trans h1.1, h2.2.1.trans h1.2.1, h2.2.2.1.trans h1.2.2.1,
        h2.2.2.2.1.trans h1.2.2.2.1, h2.2.2.2.2.1.trans h1.2.2.2.2.1,
        h2.2.2.2.2.2.trans h1.2.2.2.2.2⟩
    · rw [if_neg hc]
      exact ih m

theorem make_con_snd_some (m : Model) (lb ub : XR) (c : ℕ)
    (h : (Model.make_con m lb ub).2 = some c) :
    (Model.make_con m lb ub).1.con_lb = m.con_lb ++ [lb] ∧
    (Model.make_con m lb ub).1.con_ub = m.con_ub ++ [ub] ∧
    (Model.make_con m lb ub).1.n_con = m.n_con + 1 ∧
    (Model.make_con m lb ub).1.maximize = m.maximize ∧
    (Model.make_con m lb ub).1.var_transform = m.var_transform ∧
    (Model.make_con m lb ub).1.n_var = m.n_var ∧
    (Model.make_con m lb ub).1.con_coeff = m.con_coeff ∧ c = m.n_con := by
  by_cases hc : ub = XR.pinf ∧ lb = -ub
  · rw [Model.make_con, if_pos hc] at h
    exact absurd h (by simp)
  · simp only [Model.make_con, if_neg hc, Option.some_inj] at h
    subst h
    simp [Model.make_con, if_neg hc]

theorem set_con_coeff_fields (m : Model) (con var : ℕ) (q : XR) (add : Bool) :
    (m.set_con_coeff con var q add).con_lb = m.con_lb ∧
    (m.set_con_coeff con var q add).con_ub = m.con_ub ∧
    (m.set_con_coeff con var q add).n_con = m.n_con ∧
    (m.set_con_coeff con var q add).maximize = m.maximize ∧
    (m.set_con_coeff con var q add).var_transform = m.var_transform ∧
    (m.set_con_coeff con var q add).n_var = m.n_var := by
  simp only [Model.set_con_coeff]
  split
  · split
    · exact ⟨rfl, rfl, rfl, rfl, rfl, rfl⟩
    · exact ⟨rfl, rfl, rfl, rfl, rfl, rfl⟩
  · exact ⟨rfl, rfl, rfl, rfl, rfl, rfl⟩

/-- The per-variable step of `to_canonical_form` keeps the constraint
bookkeeping well-formed, pushes exactly one transform, and leaves the
objective direction alone. -/
theorem canon_var_step_shape (m : Model) (i : ℕ) (m' : Model)
    (h : Model.canon_var_step m i = some m') (hwf : WFcon m) :
    WFcon m' ∧ m'.var_transform.length = m.var_transform.length + 1 ∧
    m'.maximize = m.maximize := by
  simp only [Model.canon_var_step] at h
  split at h
  · -- free variable branch
    rw [Option.some_inj] at h
    rw [← h]
    refine ⟨⟨?_, ?_⟩, ?_, ?_⟩ <;>
      simp [Model.make_var, Model.set_obj_coeff, hwf.1, hwf.2]
  split at h
  · -- (dead) upper-bound branch
    rw [Option.some_inj] at h
    rw [← h]
    refine ⟨⟨?_, ?_⟩, ?_, ?_⟩ <;>
      simp [upper_entry_loop_fields, hwf.1, hwf.2]
  · -- shift branch
    split at h
    · -- finite upper bound: an extra constraint is appended
      split at h
      case h_1 con heq =>
        rw [Option.some_inj] at h
        rw [← h]
        obtain ⟨e1, e2, e3, e4, e5, e6, e7, e8⟩ := make_con_snd_some _ _ _ _ heq
        obtain ⟨hw1, hw2⟩ := hwf
        refine ⟨⟨?_, ?_⟩, ?_, ?_⟩
        · simp only [set_con_coeff_fields, e1, e3, List.length_append,
            List.length_singleton, shift_bounds_fields]
          rw [hw1]
        · simp only [set_con_coeff_fields, e2, e3, List.length_append,
            List.length_singleton, shift_bounds_fields]
          rw [hw2]
        · simp only [set_con_coeff_fields, e5, shift_bounds_fields,
            List.length_append, List.length_singleton]
        · simp only [set_con_coeff_fields, e4, shift_bounds_fields]
      case h_2 heq => exact absurd h (by simp)
    · -- infinite upper bound
      rw [Option.some_inj] at h
      rw [← h]
      refine ⟨⟨?_, ?_⟩, ?_, ?_⟩ <;>
        simp [shift_bounds_fields, hwf.1, hwf.2]

/-- The variable loop: one transform per processed index. -/
theorem canon_var_loop_shape : ∀ (xs : List ℕ) (m m' : Model),
    Model.canon_var_loop m xs = some m' → WFcon m →
    WFcon m' ∧ m'.var_transform.length = m.var_transform.length + xs.length ∧
    m'.maximize = m.maximize := by
  intro xs
  induction xs with
  | nil =>
    intro m m' h hwf
    rw [Model.canon_var_loop, Option.some_inj] at h
    rw [← h]
    exact ⟨hwf, by simp, rfl⟩
  | cons i t ih =>
    intro m m' h hwf
    rw [Model.canon_var_loop] at h
    split at h
    case h_1 m1 heq =>
      have h1 := canon_var_step_shape m i m1 heq hwf
      have h2 := ih m1 m' h h1.1
      refine ⟨h2.1, ?_, h2.2.2.trans h1.2.2⟩
      rw [h2.2.1, h1.2.1]
      simp only [List.length_cons]
      omega
    case h_2 => exact absurd h (by simp)

theorem getD_append_left {α : Type} (l l2 : List α) (i : ℕ) (h : i < l.length) (d : α) :
    (l ++ l2).getD i d = l.getD i d := by
  rw [List.getD_eq_getElem?_getD, List.getElem?_append, if_pos h, List.getD_eq_getElem?_getD]

theorem foldl_range_succ {α : Type} (f : α → ℕ → α) (a : α) (n : ℕ) :
    (List.range (n + 1)).foldl f a = f ((List.range n).foldl f a) n := by
  rw [List.range_succ, List.foldl_append, List.foldl_cons, List.foldl_nil]

theorem split_con_step_shape (m : Model) (c : ℕ) (m' : Model)
    (h : Model.split_con_step m c = some m') (hwf : WFcon m) (hc : c < m.n_con) :
    WFcon m' ∧ con_done m' c ∧
    (∀ i, i ≠ c → i < m.n_con →
      m'.con_lb.getD i 0 = m.con_lb.getD i 0 ∧ m'.con_ub.getD i 0 = m.con_ub.getD i 0) ∧
    m'.var_transform = m.var_transform ∧ m'.maximize = m.maximize := by
  simp only [Model.split_con_step] at h
  split at h
  case isTrue hguard =>
    split at h
    case h_1 newc heq =>
      rw [Option.some_inj] at h
      rw [← h]
      obtain ⟨e1, e2, e3, e4, e5, e6, e7, e8⟩ := make_con_snd_some _ _ _ _ heq
      obtain ⟨hw1, hw2⟩ := hwf
      have hclb : c < m.con_lb.length := hw1 ▸ hc
      have hcub : c < m.con_ub.length := hw2 ▸ hc
      refine ⟨⟨?_, ?_⟩, ?_, ?_, ?_, ?_⟩
      · simp only [e1, e3, List.length_append, List.length_singleton]
        rw [hw1]
      · simp only [e2, e3, List.length_append, List.length_singleton, List.length_set]
        rw [hw2]
      · refine Or.inr (Or.inl ?_)
        simp only [e2]
        rw [getD_append_left _ _ _ (by simpa using hcub)]
        exact getD_set_self _ _ hcub _ _
      · intro i hi hin
        constructor
        · simp only [e1]
          exact getD_append_left _ _ _ (hw1 ▸ hin) _
        · simp only [e2]
          rw [getD_append_left _ _ _ (by simpa using hw2 ▸ hin)]
          exact getD_set_ne _ _ _ (fun hci => hi hci.symm) _ _
      · simp only [e5]
      · simp only [e4]
    case h_2 heq => exact absurd h (by simp)
  case isFalse hguard =>
    rw [Option.some_inj] at h
    rw [← h]
    refine ⟨hwf, ?_, fun i _ _ => ⟨rfl, rfl⟩, rfl, rfl⟩
    by_cases h1 : m.con_lb.getD c 0 = XR.ninf
    · exact Or.inl h1
    by_cases h2 : m.con_ub.getD c 0 = XR.pinf
    · exact Or.inr (Or.inl h2)
    by_cases h3 : m.con_lb.getD c 0 = m.con_ub.getD c 0
    · exact Or.inr (Or.inr h3)
    · exact absurd ⟨h1, h2, h3⟩ hguard

theorem split_con_loop_post : ∀ (fuel : ℕ) (m : Model) (c : ℕ) (m' : Model),
    Model.split_con_loop fuel m c = some m' → WFcon m →
    (∀ i, i < c → i < m.n_con → con_done m i) →
    WFcon m' ∧ (∀ i, i < m'.n_con → con_done m' i) ∧
    m'.var_transform = m.var_transform ∧ m'.maximize = m.maximize := by
  intro fuel
  induction fuel with
  | zero =>
    intro m c m' h hwf hpre
    rw [Model.split_con_loop] at h
    split at h
    · exact absurd h (by simp)
    case isFalse hcc =>
      rw [Option.some_inj] at h
      rw [← h]
      exact ⟨hwf, fun i hi => hpre i (Nat.lt_of_lt_of_le hi (Nat.le_of_not_lt hcc)) hi,
        rfl, rfl⟩
  | succ fuel ih =>
    intro m c m' h hwf hpre
    rw [Model.split_con_loop] at h
    split at h
    case isTrue hcc =>
      split at h
      case h_1 m1 heq =>
        obtain ⟨swf, sdone, spres, svt, smax⟩ := split_con_step_shape m c m1 heq hwf hcc
        have hpre1 : ∀ i, i < c + 1 → i < m1.n_con → con_done m1 i := by
          intro i hi hin
          rcases Nat.lt_or_ge i c with hic | hic
          · have hio : i < m.n_con := Nat.lt_trans hic hcc
            have hb := spres i (Nat.ne_of_lt hic) hio
            have hd := hpre i hic hio
            rw [con_done, hb.1, hb.2]
            exact hd
          · have : i = c := Nat.le_antisymm (Nat.lt_succ_iff.mp hi) hic
            rw [this]
            exact sdone
        obtain ⟨rwf, rdone, rvt, rmax⟩ := ih m1 (c + 1) m' h swf hpre1
        exact ⟨rwf, rdone, rvt.trans svt, rmax.trans smax⟩
      case h_2 => exact absurd h (by simp)
    case isFalse hcc =>
      rw [Option.some_inj] at h
      rw [← h]
      exact ⟨hwf, fun i hi => hpre i (Nat.lt_of_lt_of_le hi (Nat.le_of_not_lt hcc)) hi,
        rfl, rfl⟩

theorem slack_con_step_shape (m : Model) (c : ℕ) (hwf : WFcon m) (hc : c < m.n_con) :
    WFcon (Model.slack_con_step m c) ∧
    (Model.slack_con_step m c).n_con = m.n_con ∧
    (con_done m c →
      (Model.slack_con_step m c).con_lb.getD c 0
        = (Model.slack_con_step m c).con_ub.getD c 0) ∧
    (∀ i, i ≠ c →
      (Model.slack_con_step m c).con_lb.getD i 0 = m.con_lb.getD i 0 ∧
      (Model.slack_con_step m c).con_ub.getD i 0 = m.con_ub.getD i 0) ∧
    (Model.slack_con_step m c).var_transform = m.var_transform ∧
    (Model.slack_con_step m c).maximize = m.maximize := by
  obtain ⟨hw1, hw2⟩ := hwf
  have hclb : c < m.con_lb.length := hw1 ▸ hc
  have hcub : c < m.con_ub.length := hw2 ▸ hc
  simp only [Model.slack_con_step]
  split
  case isTrue hlb =>
    refine ⟨⟨?_, ?_⟩, rfl, ?_, ?_, rfl, rfl⟩
    · simp only [Model.make_var, Model.set_con_coeff]
      simp [hw1]
    · simp only [Model.make_var, Model.set_con_coeff]
      simp [hw2]
    · intro _
      simp only [Model.make_var, Model.set_con_coeff]
      exact getD_set_self _ _ hclb _ _
    · intro i hi
      simp only [Model.make_var, Model.set_con_coeff]
      exact ⟨getD_set_ne _ _ _ (fun hci => hi hci.symm) _ _, rfl⟩
  split
  case isTrue hub =>
    refine ⟨⟨?_, ?_⟩, rfl, ?_, ?_, rfl, rfl⟩
    · simp only [Model.make_var, Model.set_con_coeff]
      simp [hw1]
    · simp only [Model.make_var, Model.set_con_coeff]
      simp [hw2]
    · intro _
      simp only [Model.make_var, Model.set_con_coeff]
      exact (getD_set_self _ _ hcub _ _).symm
    · intro i hi
      simp only [Model.make_var, Model.set_con_coeff]
      exact ⟨rfl, getD_set_ne _ _ _ (fun hci => hi hci.symm) _ _⟩
  case isFalse hlb hub =>
    refine ⟨⟨hw1, hw2⟩, rfl, ?_, fun i _ => ⟨rfl, rfl⟩, rfl, rfl⟩
    intro hdone
    rcases hdone with h1 | h2 | h3
    · exact absurd h1 hlb
    · exact absurd h2 hub
    · exact h3

theorem slack_loop_post (m : Model) (hwf : WFcon m)
    (hdone : ∀ i, i < m.n_con → con_done m i) :
    ∀ n, n ≤ m.n_con →
    WFcon ((List.range n).foldl Model.slack_con_step m) ∧
    ((List.range n).foldl Model.slack_con_step m).n_con = m.n_con ∧
    (∀ i, i < n →
      ((List.range n).foldl Model.slack_con_step m).con_lb.getD i 0
        = ((List.range n).foldl Model.slack_con_step m).con_ub.getD i 0) ∧
    (∀ i, n ≤ i →
      ((List.range n).foldl Model.slack_con_step m).con_lb.getD i 0 = m.con_lb.getD i 0 ∧
      ((List.range n).foldl Model.slack_con_step m).con_ub.getD i 0 = m.con_ub.getD i 0) ∧
    ((List.range n).foldl Model.slack_con_step m).var_transform = m.var_transform ∧
    ((List.range n).foldl Model.slack_con_step m).maximize = m.maximize := by
  intro n
  induction n with
  | zero =>
    intro _
    exact ⟨hwf, rfl, fun i hi => absurd hi (Nat.not_lt_zero i), fun i _ => ⟨rfl, rfl⟩,
      rfl, rfl⟩
  | succ n ih =>
    intro hn
    obtain ⟨gwf, gn, geq, gpres, gvt, gmax⟩ := ih (Nat.le_of_succ_le hn)
    rw [foldl_range_succ]
    have hcn : n < ((List.range n).foldl Model.slack_con_step m).n_con := by
      rw [gn]
      exact hn
    have hdg : con_done ((List.range n).foldl Model.slack_con_step m) n := by
      have hb := gpres n (Nat.le_refl n)
      rw [con_done, hb.1, hb.2]
      exact hdone n (Nat.lt_of_lt_of_le (Nat.lt_succ_self n) hn)
    obtain ⟨swf, sn, seq, spres, svt, smax⟩ :=
      slack_con_step_shape ((List.range n).foldl Model.slack_con_step m) n gwf hcn
    refine ⟨swf, sn.trans gn, ?_, ?_, svt.trans gvt, smax.trans gmax⟩
    · intro i hi
      rcases Nat.lt_or_ge i n with hin | hin
      · have hb := spres i (Nat.ne_of_lt hin)
        rw [hb.1, hb.2]
        exact geq i hin
      · have : i = n := Nat.le_antisymm (Nat.lt_succ_iff.mp hi) hin
        rw [this]
        exact seq hdg
    · intro i hi
      have hin : i ≠ n := fun he => absurd (he ▸ hi) (Nat.not_succ_le_self n)
      have hb := spres i hin
      have hg := gpres i (Nat.le_of_succ_le hi)
      exact ⟨hb.1.trans hg.1, hb.2.trans hg.2⟩

theorem XR.flip_nonneg_of_lt_zero (a : XR) (h : a < 0) : (0 : XR) ≤ a * (-1) := by
  cases a with
  | ninf =>
    have hm : XR.ninf * (-1 : XR) = XR.pinf := by with_unfolding_all rfl
    rw [hm]
    exact rfl
  | pinf => exact absurd h (by with_unfolding_all (exact Bool.false_ne_true))
  | fin q =>
    have hq : q < 0 := by
      have := of_decide_eq_true h
      exact this
    rw [XR.nonneg_iff_not_lt_zero]
    intro hlt
    have hq2 : q * (-1) < 0 := of_decide_eq_true hlt
    nlinarith

theorem flip_con_step_shape (m : Model) (c : ℕ) (hwf : WFcon m) (hc : c < m.n_con)
    (heq : m.con_lb.getD c 0 = m.con_ub.getD c 0) :
    WFcon (Model.flip_con_step m c) ∧
    (Model.flip_con_step m c).n_con = m.n_con ∧
    ((Model.flip_con_step m c).con_lb.getD c 0 = (Model.flip_con_step m c).con_ub.getD c 0 ∧
     (0 : XR) ≤ (Model.flip_con_step m c).con_ub.getD c 0) ∧
    (∀ i, i ≠ c →
      (Model.flip_con_step m c).con_lb.getD i 0 = m.con_lb.getD i 0 ∧
      (Model.flip_con_step m c).con_ub.getD i 0 = m.con_ub.getD i 0) ∧
    (Model.flip_con_step m c).var_transform = m.var_transform ∧
    (Model.flip_con_step m c).maximize = m.maximize := by
  obtain ⟨hw1, hw2⟩ := hwf
  have hclb : c < m.con_lb.length := hw1 ▸ hc
  have hcub : c < m.con_ub.length := hw2 ▸ hc
  rw [Model.flip_con_step]
  split
  case isTrue hneg =>
    refine ⟨⟨by simp [hw1], by simp [hw2]⟩, rfl, ⟨?_, ?_⟩, ?_, rfl, rfl⟩
    · rw [getD_set_self _ _ hclb _ _, getD_set_self _ _ hcub _ _, heq]
    · rw [getD_set_self _ _ hcub _ _]
      exact XR.flip_nonneg_of_lt_zero _ hneg
    · intro i hi
      exact ⟨getD_set_ne _ _ _ (fun hci => hi hci.symm) _ _,
        getD_set_ne _ _ _ (fun hci => hi hci.symm) _ _⟩
  case isFalse hneg =>
    refine ⟨⟨hw1, hw2⟩, rfl, ⟨heq, ?_⟩, fun i _ => ⟨rfl, rfl⟩, rfl, rfl⟩
    rw [XR.nonneg_iff_not_lt_zero]
    exact hneg

theorem flip_loop_post (m : Model) (hwf : WFcon m)
    (heq : ∀ i, i < m.n_con → m.con_lb.getD i 0 = m.con_ub.getD i 0) :
    ∀ n, n ≤ m.n_con →
    WFcon ((List.range n).foldl Model.flip_con_step m) ∧
    ((List.range n).foldl Model.flip_con_step m).n_con = m.n_con ∧
    (∀ i, i < n →
      ((List.range n).foldl Model.flip_con_step m).con_lb.getD i 0
        = ((List.range n).foldl Model.flip_con_step m).con_ub.getD i 0 ∧
      (0 : XR) ≤ ((List.range n).foldl Model.flip_con_step m).con_ub.getD i 0) ∧
    (∀ i, n ≤ i →
      ((List.range n).foldl Model.flip_con_step m).con_lb.getD i 0 = m.con_lb.getD i 0 ∧
      ((List.range n).foldl Model.flip_con_step m).con_ub.getD i 0 = m.con_ub.getD i 0) ∧
    ((List.range n).foldl Model.flip_con_step m).var_transform = m.var_transform ∧
    ((List.range n).foldl Model.flip_con_step m).maximize = m.maximize := by
  intro n
  induction n with
  | zero =>
    intro _
    exact ⟨hwf, rfl, fun i hi => absurd hi (Nat.not_lt_zero i), fun i _ => ⟨rfl, rfl⟩,
      rfl, rfl⟩
  | succ n ih =>
    intro hn
    obtain ⟨gwf, gn, geq, gpres, gvt, gmax⟩ := ih (Nat.le_of_succ_le hn)
    rw [foldl_range_succ]
    have hcn : n < ((List.range n).foldl Model.flip_con_step m).n_con := by
      rw [gn]
      exact hn
    have hgeq : ((List.range n).foldl Model.flip_con_step m).con_lb.getD n 0
        = ((List.range n).foldl Model.flip_con_step m).con_ub.getD n 0 := by
      have hb := gpres n (Nat.le_refl n)
      rw [hb.1, hb.2]
      exact heq n (Nat.lt_of_lt_of_le (Nat.lt_succ_self n) hn)
    obtain ⟨fwf, fn, feqc, fpres, fvt, fmax⟩ :=
      flip_con_step_shape ((List.range n).foldl Model.flip_con_step m) n gwf hcn hgeq
    refine ⟨fwf, fn.trans gn, ?_, ?_, fvt.trans gvt, fmax.trans gmax⟩
    · intro i hi
      rcases Nat.lt_or_ge i n with hin | hin
      · have hb := fpres i (Nat.ne_of_lt hin)
        rw [hb.1, hb.2]
        exact geq i hin
      · have : i = n := Nat.le_antisymm (Nat.lt_succ_iff.mp hi) hin
        rw [this]
        exact feqc
    · intro i hi
      have hin : i ≠ n := fun he => absurd (he ▸ hi) (Nat.not_succ_le_self n)
      have hb := fpres i hin
      have hg := gpres i (Nat.le_of_succ_le hi)
      exact ⟨hb.1.trans hg.1, hb.2.trans hg.2⟩

/-- C2: after `to_canonical_form` returns, the model minimizes, every
constraint is an equality with nonnegative right-hand side, and exactly
one transform was recorded per pre-transform variable. -/
theorem claim_C2_canonical_postconditions (m m' : Model)
    (hlb : m.con_lb.length = m.n_con) (hub : m.con_ub.length = m.n_con)
    (h : Model.to_canonical_form m = some m') :
    m'.maximize = false ∧
    (∀ c, c < m'.n_con → m'.con_lb.getD c 0 = m'.con_ub.getD c 0) ∧
    (∀ c, c < m'.n_con → (0 : XR) ≤ m'.con_ub.getD c 0) ∧
    m'.var_transform.length = m.n_var := by
  rw [Model.to_canonical_form] at h
  split at h
  · exact absurd h (by simp)
  case isFalse hvt =>
    have hvt0 : m.var_transform.length = 0 := Nat.eq_zero_of_not_pos
      (fun hpos => hvt (Nat.pos_iff_ne_zero.mp hpos))
    split at h
    case h_1 => exact absurd h (by simp)
    case h_2 m1 heq1 =>
      split at h
      case h_1 => exact absurd h (by simp)
      case h_2 m2 heq2 =>
        rw [Option.some_inj] at h
        obtain ⟨wf1, len1, max1⟩ := canon_var_loop_shape _ m m1 heq1 ⟨hlb, hub⟩
        obtain ⟨wf2, done2, vt2, max2⟩ := split_con_loop_post _ m1 0 m2 heq2 wf1
          (fun i hi _ => absurd hi (Nat.not_lt_zero i))
        obtain ⟨wf3, n3, eq3, _, vt3, max3⟩ :=
          slack_loop_post m2 wf2 done2 m2.n_con (Nat.le_refl _)
        have heq3 : ∀ i, i < ((List.range m2.n_con).foldl Model.slack_con_step m2).n_con →
            ((List.range m2.n_con).foldl Model.slack_con_step m2).con_lb.getD i 0
              = ((List.range m2.n_con).foldl Model.slack_con_step m2).con_ub.getD i 0 := by
          intro i hi
          exact eq3 i (n3 ▸ hi)
        obtain ⟨wf4, n4, eq4, _, vt4, max4⟩ :=
          flip_loop_post _ wf3 heq3
            ((List.range m2.n_con).foldl Model.slack_con_step m2).n_con (Nat.le_refl _)
        set m3 := (List.range m2.n_con).foldl Model.slack_con_step m2 with hm3
        set m4 := (List.range m3.n_con).foldl Model.flip_con_step m3 with hm4
        have hmz : ∀ c, c < m4.n_con →
            (m4.con_lb.getD c 0 = m4.con_ub.getD c 0 ∧ (0 : XR) ≤ m4.con_ub.getD c 0) :=
          fun c hc => eq4 c (n4 ▸ hc)
        have hvt4 : m4.var_transform.length = m.n_var := by
          rw [vt4, vt3, vt2, len1, hvt0, List.length_range]
          exact Nat.zero_add _
        rw [← h]
        split
        case isTrue =>
          refine ⟨rfl, ?_, ?_, ?_⟩
          · exact fun c hc => (hmz c hc).1
          · exact fun c hc => (hmz c hc).2
          · exact hvt4
        case isFalse hmax =>
          refine ⟨?_, ?_, ?_, ?_⟩
          · exact Bool.not_eq_true _ ▸ Bool.eq_false_iff.mpr hmax
          · exact fun c hc => (hmz c hc).1
          · exact fun c hc => (hmz c hc).2
          · exact hvt4

theorem claim_C2_canonical_postconditions_witness :
    Model.to_canonical_form modelC2
      = some ((Model.to_canonical_form modelC2).getD {}) ∧
    ((Model.to_canonical_form modelC2).getD {}).maximize = false ∧
    ((Model.to_canonical_form modelC2).getD {}).var_transform.length = 1 := by
  have h : Model.to_canonical_form modelC2
      = some ((Model.to_canonical_form modelC2).getD {}) := by
    with_unfolding_all rfl
  have h2 := claim_C2_canonical_postconditions modelC2 _ rfl rfl h
  exact ⟨h, h2.1, h2.2.2.2⟩

/-- Witness for C9's amended frame statement at a concrete solve. -/
theorem claim_C9_frame_witness :
    Model.solve_rat 20 modelC9
      = some (((Model.solve_rat 20 modelC9).getD ({}, true)).1, true) ∧
    ((Model.solve_rat 20 modelC9).getD ({}, true)).1.n_var = modelC9.n_var ∧
    ((Model.solve_rat 20 modelC9).getD ({}, true)).1.A = modelC9.A := by
  have h1 : Model.solve_rat 20 modelC9
      = some (((Model.solve_rat 20 modelC9).getD ({}, true)).1, true) := by
    with_unfolding_all rfl
  have h2 := claim_C9_frame.2.1 20 modelC9 _ true h1
  exact ⟨h1, h2.1, h2.2.1⟩

end LibQif
